import Mathlib

/-!
# Vision target scoring of `src/Robot.cpp`

A shallow embedding of the particle scoring, ranking, classification and distance
code of `Robot.cpp`, and theorems about it.

## Numbers

The program computes in C `double`.  A `Dbl` is a value of IEEE 754 arithmetic:
a finite number, the negative zero, one of the two infinities, or a NaN.  All
operations follow IEEE 754 on the special values (signed zeros, division by zero,
`inf - inf`, NaN propagation, comparisons with NaN, `fmin`/`fmax` with a NaN
argument).  On finite values there are two sets of operations.

* `sub`, `mul`, `div` are exact: the arithmetic of the real numbers, without the
  rounding of a result to 53 bits.  `ratioToScore`, the four scorers and
  `computeDistance` over them are the source expressions read in real arithmetic; the
  theorems on degenerate inputs, on the classification and on the two ideal ratios are
  stated over them.
* `sub64`, `mul64`, `div64` round every result to the nearest binary64 number, ties to
  even, with the subnormal numbers, underflow to zero and overflow to an infinity;
  decimal literals are rounded by `lit64`.  `ratioToScore64`, `normalizedWidth64` and
  `computeDistance64` are the same source expressions over them, and the theorems on
  the values that `ratioToScore` and `computeDistance` return are stated over these.

## Ranking

`std::sort` appears twice: as any function that meets the guarantee of the C++ standard
(`StdSort`), and as the introsort of GNU libstdc++ (`libstdcxx_sort`), which is what
decides the order of particles of equal percent area.
-/

namespace Robot

/-- A C `double`: `fin q` is the finite number `q` (`fin 0` is `+0`), `negZero` is
`-0`. -/
inductive Dbl where
  | fin (q : ℚ)
  | negZero
  | pinf
  | ninf
  | nan
  deriving DecidableEq

namespace Dbl

/-- `isnan`. -/
def isNaN : Dbl → Bool
  | nan => true
  | _ => false

/-- True for `+inf`. -/
def isPosInf : Dbl → Bool
  | pinf => true
  | _ => false

/-- True for `-inf`. -/
def isNegInf : Dbl → Bool
  | ninf => true
  | _ => false

/-- `isinf`. -/
def isInf (x : Dbl) : Bool := x.isPosInf || x.isNegInf

/-- `isfinite`: neither an infinity nor a NaN. -/
def isFinite : Dbl → Bool
  | fin _ => true
  | negZero => true
  | _ => false

/-- The rational value of a finite double (0 for the others, where it is not used). -/
def val : Dbl → ℚ
  | fin q => q
  | _ => 0

/-- True for `+0` and `-0`. -/
def isZero : Dbl → Bool
  | fin q => decide (q = 0)
  | negZero => true
  | _ => false

/-- A zero of either sign, or a NaN. -/
def zeroOrNaN (x : Dbl) : Bool := x.isZero || x.isNaN

/-- The sign bit (`signbit`); false for a NaN, whose sign is never used. -/
def signBit : Dbl → Bool
  | fin q => decide (q < 0)
  | negZero => true
  | ninf => true
  | _ => false

/-- The finite double of value `q`; a zero takes the sign `neg`. -/
def mk (neg : Bool) (q : ℚ) : Dbl :=
  if q = 0 ∧ neg = true then negZero else fin q

/-- The infinity of sign `neg`. -/
def signedInf (neg : Bool) : Dbl :=
  if neg then ninf else pinf

/-- IEEE 754 subtraction `x - y`, exact on finite values.  `inf - inf` of equal sign
is a NaN; a zero difference is `+0` unless `x` is `-0` and `y` is `+0`. -/
def sub (x y : Dbl) : Dbl :=
  if x.isNaN || y.isNaN then nan
  else if x.isInf then
    if y.isInf && (x.signBit == y.signBit) then nan else x
  else if y.isInf then signedInf (!y.signBit)
  else mk (x.signBit && !y.signBit) (x.val - y.val)

/-- IEEE 754 multiplication, exact on finite values.  `inf * 0` is a NaN; the sign of
a zero or infinite product is the exclusive or of the signs. -/
def mul (x y : Dbl) : Dbl :=
  if x.isNaN || y.isNaN then nan
  else if x.isInf || y.isInf then
    if x.isZero || y.isZero then nan else signedInf (xor x.signBit y.signBit)
  else mk (xor x.signBit y.signBit) (x.val * y.val)

/-- IEEE 754 division, exact on finite values.  `0 / 0` and `inf / inf` are NaN, a
non-zero number divided by a zero is an infinity, a finite number divided by an
infinity is a zero; the sign is the exclusive or of the signs. -/
def div (x y : Dbl) : Dbl :=
  if x.isNaN || y.isNaN then nan
  else if x.isInf then
    if y.isInf then nan else signedInf (xor x.signBit y.signBit)
  else if y.isInf then mk (xor x.signBit y.signBit) 0
  else if y.isZero then
    if x.isZero then nan else signedInf (xor x.signBit y.signBit)
  else mk (xor x.signBit y.signBit) (x.val / y.val)

/-- C `fabs`: clears the sign. -/
def fabs : Dbl → Dbl
  | fin q => fin |q|
  | negZero => fin 0
  | pinf => pinf
  | ninf => pinf
  | nan => nan

/-- C `x <= y`: false when an operand is a NaN; `-0` and `+0` are equal. -/
def le (x y : Dbl) : Bool :=
  if x.isNaN || y.isNaN then false
  else if x.isNegInf || y.isPosInf then true
  else if x.isPosInf || y.isNegInf then false
  else decide (x.val ≤ y.val)

/-- C `x < y`: false when an operand is a NaN. -/
def lt (x y : Dbl) : Bool :=
  if x.isNaN || y.isNaN then false
  else if x.isPosInf || y.isNegInf then false
  else if x.isNegInf || y.isPosInf then true
  else decide (x.val < y.val)

/-- C `x > y`. -/
def gt (x y : Dbl) : Bool := lt y x

/-- C `x >= y`. -/
def ge (x y : Dbl) : Bool := le y x

/-- C `fmin`: the smaller argument, a NaN argument counting as missing data (the
other argument is returned); of two equal arguments the first. -/
def fmin (x y : Dbl) : Dbl :=
  if le x y || y.isNaN then x else y

/-- C `fmax`: the larger argument, a NaN argument counting as missing data (the
other argument is returned); of two equal arguments the first. -/
def fmax (x y : Dbl) : Dbl :=
  if ge x y || y.isNaN then x else y

/-- Conversion of an `int` to `double` (exact). -/
def ofInt (n : Int) : Dbl := fin n

instance : Sub Dbl := ⟨sub⟩
instance : Mul Dbl := ⟨mul⟩
instance : Div Dbl := ⟨div⟩
instance (n : Nat) : OfNat Dbl n := ⟨fin n⟩
instance : OfScientific Dbl := ⟨fun m s e => fin (OfScientific.ofScientific m s e)⟩

end Dbl

open Dbl

/-! ## Binary64 rounding

The operations above are exact on finite values.  The machine rounds the exact result
of every operation to the nearest binary64 number, ties to the even significand:
`round64` is that rounding, with the subnormal numbers below `2^-1022` and overflow to
an infinity from `2^1024`, and `sub64`, `mul64` and `div64` are the operations of the
machine. -/

namespace Dbl

/-- The nearest integer, of two equally near the even one. -/
def roundHalfEven (x : ℚ) : ℤ :=
  if x - ⌊x⌋ < 1 / 2 then ⌊x⌋
  else if 1 / 2 < x - ⌊x⌋ then ⌊x⌋ + 1
  else if ⌊x⌋ % 2 = 0 then ⌊x⌋ else ⌊x⌋ + 1

/-- The exponent of the unit in the last place at `q`: 52 below the binary exponent of
`q`, which counts as at least -1022 (the subnormal range, and zero). -/
def ulpExp (q : ℚ) : ℤ :=
  if q = 0 then -1074 else max (Int.log 2 |q|) (-1022) - 52

/-- The multiple of the unit in the last place nearest to `q`, ties to even. -/
def rnd (q : ℚ) : ℚ := roundHalfEven (q / 2 ^ ulpExp q) * 2 ^ ulpExp q

/-- The binary64 number that the exact result `q` of an operation rounds to; `neg` is
the sign the operation gives an exact zero. -/
def round64 (neg : Bool) (q : ℚ) : Dbl :=
  if 2 ^ 1024 ≤ |rnd q| then signedInf (decide (q < 0))
  else if q = 0 then mk neg 0
  else mk (decide (q < 0)) (rnd q)

/-- IEEE 754 subtraction in binary64. -/
def sub64 (x y : Dbl) : Dbl :=
  if x.isNaN || y.isNaN then nan
  else if x.isInf then
    if y.isInf && (x.signBit == y.signBit) then nan else x
  else if y.isInf then signedInf (!y.signBit)
  else round64 (x.signBit && !y.signBit) (x.val - y.val)

/-- IEEE 754 multiplication in binary64. -/
def mul64 (x y : Dbl) : Dbl :=
  if x.isNaN || y.isNaN then nan
  else if x.isInf || y.isInf then
    if x.isZero || y.isZero then nan else signedInf (xor x.signBit y.signBit)
  else round64 (xor x.signBit y.signBit) (x.val * y.val)

/-- IEEE 754 division in binary64. -/
def div64 (x y : Dbl) : Dbl :=
  if x.isNaN || y.isNaN then nan
  else if x.isInf then
    if y.isInf then nan else signedInf (xor x.signBit y.signBit)
  else if y.isInf then mk (xor x.signBit y.signBit) 0
  else if y.isZero then
    if x.isZero then nan else signedInf (xor x.signBit y.signBit)
  else round64 (xor x.signBit y.signBit) (x.val / y.val)

/-- The binary64 value of a decimal literal of the source. -/
def lit64 (q : ℚ) : Dbl := round64 false q

/-- Conversion of an `int` to binary64. -/
def ofInt64 (n : Int) : Dbl := round64 false n

end Dbl

/-! ## Data (Robot.cpp, lines 16-32 and 122-126) -/

/-- `struct ParticleReport`: the measurements of a particle. -/
structure ParticleReport where
  PercentAreaToImageArea : Dbl
  Area : Dbl
  ConvexHullArea : Dbl
  BoundingRectLeft : Dbl
  BoundingRectTop : Dbl
  BoundingRectRight : Dbl
  BoundingRectBottom : Dbl
  deriving DecidableEq

/-- `struct Scores`: the scores of the tests used for target identification. -/
structure Scores where
  Trapezoid : Dbl
  LongAspect : Dbl
  ShortAspect : Dbl
  AreaToConvexHullArea : Dbl
  deriving DecidableEq

/-- Tote long side = 26.9 / tote height = 12.1 = 2.22. -/
def LONG_RATIO : Dbl := 2.22

/-- Tote short side = 16.9 / tote height = 12.1 = 1.4. -/
def SHORT_RATIO : Dbl := 1.4

/-- Minimum score to be considered a tote. -/
def SCORE_MIN : Dbl := 75.0

/-- View angle of the camera, in degrees. -/
def VIEW_ANGLE : Dbl := 49.4

/-! ## Scoring (Robot.cpp, lines 43-105) -/

/-- `CompareParticleSizes` (line 44): true if particle 1 is larger. -/
def CompareParticleSizes (particle1 particle2 : ParticleReport) : Bool :=
  gt particle1.PercentAreaToImageArea particle2.PercentAreaToImageArea

/-- `ratioToScore` (line 53). -/
def ratioToScore (ratio : Dbl) : Dbl :=
  fmax 0 (fmin (100 * (1 - fabs (1 - ratio))) 100)

/-- `ConvexHullAreaScore` (line 60). -/
def ConvexHullAreaScore (report : ParticleReport) : Dbl :=
  ratioToScore ((report.Area / report.ConvexHullArea) * 1.18)

/-- `TrapezoidScore` (line 68). -/
def TrapezoidScore (report : ParticleReport) : Dbl :=
  ratioToScore (report.ConvexHullArea /
    ((report.BoundingRectRight - report.BoundingRectLeft) *
      (report.BoundingRectBottom - report.BoundingRectTop) * 0.954))

/-- `LongSideScore` (line 75). -/
def LongSideScore (report : ParticleReport) : Dbl :=
  ratioToScore (((report.BoundingRectRight - report.BoundingRectLeft) /
    (report.BoundingRectBottom - report.BoundingRectTop)) / LONG_RATIO)

/-- `ShortSideScore` (line 82). -/
def ShortSideScore (report : ParticleReport) : Dbl :=
  ratioToScore (((report.BoundingRectRight - report.BoundingRectLeft) /
    (report.BoundingRectBottom - report.BoundingRectTop)) / SHORT_RATIO)

/-- The local `normalizedWidth` of `computeDistance` (line 100); `xRes` is the `int`
image width that `imaqGetImageSize` stores. -/
def normalizedWidth (xRes : Int) (report : ParticleReport) : Dbl :=
  2 * (report.BoundingRectRight - report.BoundingRectLeft) / ofInt xRes

/-- `computeDistance` (line 95).  The `<cmath>` function `tan` and constant `M_PI`
are parameters; `xRes` stands for the image, of which only the width is read.  The
value returned is the `return` expression of line 104; the dashboard write of line 101
is recorded by `TeleopPeriodicParticles`. -/
def computeDistance (tan : Dbl → Dbl) (M_PI : Dbl) (xRes : Int) (report : ParticleReport)
    (isLong : Bool) : Dbl :=
  let targetWidth : Dbl := if isLong then 26.9 else 16.9
  targetWidth / (normalizedWidth xRes report * 12 * tan (VIEW_ANGLE * M_PI / ofInt (180 * 2)))

/-! ## The score normalizer and the distance estimate in binary64

`ratioToScore` and `computeDistance` once more, with every operation rounded as the
machine rounds it and the decimal literals at their binary64 values.  The integer
literals are converted exactly. -/

/-- `ratioToScore` (line 53) in binary64 arithmetic. -/
def ratioToScore64 (ratio : Dbl) : Dbl :=
  fmax 0 (fmin (mul64 100 (sub64 1 (fabs (sub64 1 ratio)))) 100)

/-- The local `normalizedWidth` of `computeDistance` (line 100) in binary64
arithmetic. -/
def normalizedWidth64 (xRes : Int) (report : ParticleReport) : Dbl :=
  div64 (mul64 2 (sub64 report.BoundingRectRight report.BoundingRectLeft)) (ofInt64 xRes)

/-- `computeDistance` (line 95) in binary64 arithmetic; `tan` and `M_PI` of `<cmath>`
are parameters. -/
def computeDistance64 (tan : Dbl → Dbl) (M_PI : Dbl) (xRes : Int) (report : ParticleReport)
    (isLong : Bool) : Dbl :=
  let targetWidth : Dbl := if isLong then lit64 26.9 else lit64 16.9
  div64 targetWidth
    (mul64 (mul64 (normalizedWidth64 xRes report) 12)
      (tan (div64 (mul64 (lit64 49.4) M_PI) (ofInt64 (180 * 2)))))

/-- The binary64 numbers: a significand of at most 53 bits times a power of two between
`2^-1074` and `2^971`. -/
def IsBinary64 (q : ℚ) : Prop :=
  ∃ m e : ℤ, |m| < 2 ^ 53 ∧ -1074 ≤ e ∧ e ≤ 971 ∧ q = m * 2 ^ e

/-- `Within k a x`: the computed number `a` is the exact positive number `x` up to `k`
roundings, each of a relative error of at most `2^-53`. -/
def Within (k : ℕ) (a x : ℚ) : Prop :=
  x * (1 - 1 / 2 ^ 53) ^ k ≤ a ∧ a * (1 - 1 / 2 ^ 53) ^ k ≤ x

/-! ## Ranking: `std::sort` (Robot.cpp, line 263) -/

/-- What `std::sort` requires of its comparator on the elements it sorts: a strict weak
ordering (irreflexive, transitive, with a transitive incomparability). -/
def StrictWeakOrderOn (comp : ParticleReport → ParticleReport → Bool)
    (l : List ParticleReport) : Prop :=
  (∀ a ∈ l, comp a a = false) ∧
  (∀ a ∈ l, ∀ b ∈ l, ∀ c ∈ l, comp a b = true → comp b c = true → comp a c = true) ∧
  (∀ a ∈ l, ∀ b ∈ l, ∀ c ∈ l, comp a b = false → comp b a = false →
    comp b c = false → comp c b = false → comp a c = false ∧ comp c a = false)

/-- What the C++ standard guarantees of `std::sort(first, last, comp)`: given a strict
weak ordering, the range is rearranged (a permutation) so that no element is ordered
by `comp` before an element in front of it.  The relative order of equivalent elements
is not part of the guarantee. -/
def StdSort
    (sort : (ParticleReport → ParticleReport → Bool) → List ParticleReport → List ParticleReport) :
    Prop :=
  ∀ comp l, StrictWeakOrderOn comp l →
    (sort comp l).Perm l ∧ (sort comp l).Pairwise (fun a b => comp b a = false)

/-- Insertion of `x` into a sorted list behind every element it is not ordered
before. -/
def insertBehindTies (comp : ParticleReport → ParticleReport → Bool) (x : ParticleReport) :
    List ParticleReport → List ParticleReport
  | [] => [x]
  | y :: ys => if comp x y then x :: y :: ys else y :: insertBehindTies comp x ys

/-- An insertion sort that meets `StdSort` and is not stable: equivalent elements come
out in the reverse of their input order.  It is not the sort of the program; it shows
that `StdSort` can be met. -/
def sortTiesReversed (comp : ParticleReport → ParticleReport → Bool) :
    List ParticleReport → List ParticleReport
  | [] => []
  | x :: xs => insertBehindTies comp x (sortTiesReversed comp xs)

/-- A value written to the dashboard. -/
inductive DashValue where
  | number (d : Dbl)
  | boolean (b : Bool)
  deriving DecidableEq

/-- What the analysis of one frame leaves behind: the member `scores` and the
`SmartDashboard` writes, in program order. -/
structure CycleOutput where
  scores : Scores
  dashboard : List (String × DashValue)
  deriving DecidableEq

/-- `std::vector::at`: throws `out_of_range` when the index is not in the vector. -/
def vectorAt (v : List ParticleReport) (n : Nat) : Except String ParticleReport :=
  match v.get? n with
  | some p => .ok p
  | none => .error "out_of_range"

/-- The measuring loop (lines 251-262): one report per particle index below
`numParticles`, in detection order; `measure` stands for the `imaqMeasureParticle`
calls on the binary frame. -/
def measureParticles (measure : Nat → ParticleReport) (numParticles : Int) :
    List ParticleReport :=
  (List.range numParticles.toNat).map measure

/-- Line 276: the tote decision. -/
def isTote (scores : Scores) : Bool :=
  gt scores.Trapezoid SCORE_MIN &&
    (gt scores.LongAspect SCORE_MIN || gt scores.ShortAspect SCORE_MIN) &&
    gt scores.AreaToConvexHullArea SCORE_MIN

/-- Line 277: the orientation decision. -/
def isLong (scores : Scores) : Bool :=
  gt scores.LongAspect scores.ShortAspect

/-- Lines 249-284 of `TeleopPeriodic`: measure, rank, score and classify the
particles of the filtered binary frame.  `sort` is the `std::sort` of line 263 applied
to the comparator, `numParticles` the count that `imaqCountParticles` stored, `scores`
the member `scores` before the block. -/
def TeleopPeriodicParticles
    (sort : (ParticleReport → ParticleReport → Bool) → List ParticleReport → List ParticleReport)
    (tan : Dbl → Dbl) (M_PI : Dbl) (measure : Nat → ParticleReport) (xRes : Int)
    (scores : Scores) (numParticles : Int) : Except String CycleOutput :=
  if numParticles > 0 then do
    let particles := sort CompareParticleSizes (measureParticles measure numParticles)
    let scores := { scores with Trapezoid := TrapezoidScore (← vectorAt particles 0) }
    let scores := { scores with LongAspect := LongSideScore (← vectorAt particles 0) }
    let scores := { scores with ShortAspect := ShortSideScore (← vectorAt particles 0) }
    let scores :=
      { scores with AreaToConvexHullArea := ConvexHullAreaScore (← vectorAt particles 0) }
    let p ← vectorAt particles 0
    pure
      { scores := scores
        dashboard :=
          [("Trapezoid", .number scores.Trapezoid),
           ("Long Aspect", .number scores.LongAspect),
           ("Short Aspect", .number scores.ShortAspect),
           ("Convex Hull Area", .number scores.AreaToConvexHullArea),
           ("IsTote", .boolean (isTote scores)),
           ("Width", .number (normalizedWidth xRes p)),
           ("Distance", .number (computeDistance tan M_PI xRes p (isLong scores)))] }
  else
    pure { scores := scores, dashboard := [("IsTote", .boolean false)] }

/-! ## Sample inputs -/

/-- A particle of no extent: zero area, zero convex hull area and a bounding rectangle
whose four edges coincide. -/
def pointParticle : ParticleReport :=
  { PercentAreaToImageArea := 5, Area := 0, ConvexHullArea := 0,
    BoundingRectLeft := 10, BoundingRectTop := 10,
    BoundingRectRight := 10, BoundingRectBottom := 10 }

/-- A particle that fills its convex hull: area and convex hull area are both 50. -/
def filledParticle : ParticleReport :=
  { PercentAreaToImageArea := 5, Area := 50, ConvexHullArea := 50,
    BoundingRectLeft := 0, BoundingRectTop := 0,
    BoundingRectRight := 10, BoundingRectBottom := 10 }

/-- The constant `M_PI` of `<cmath>`, to 16 significant digits. -/
def M_PI_sample : Dbl := 3.141592653589793

/-- A stand-in for `tan` of `<cmath>` at sample inputs: 0.46, which is `tan` of half the
view angle (24.7 degrees) to two places, whatever the argument. -/
def tanSample : Dbl → Dbl := fun _ => 0.46

/-- A particle with a bounding rectangle 200 pixels wide. -/
def wideParticle : ParticleReport :=
  { PercentAreaToImageArea := 30, Area := 20000, ConvexHullArea := 21000,
    BoundingRectLeft := 100, BoundingRectTop := 50,
    BoundingRectRight := 300, BoundingRectBottom := 170 }

/-- The binary64 constant `M_PI` of `<cmath>`, 0x1.921fb54442d18p+1. -/
def M_PI64 : Dbl := fin (884279719003555 / 281474976710656)

/-- A stand-in for `tan` of `<cmath>` that knows one argument, 0x1.b97150a95ef83p-2, the
binary64 value of `VIEW_ANGLE*M_PI/(180*2)`: there it returns 0x1.d6fcc4be3c493p-2, the
binary64 number nearest to the tangent.  Elsewhere it returns a NaN. -/
def tanHalfViewAngle (x : Dbl) : Dbl :=
  if x = fin (7765940998893443 / 18014398509481984) then
    fin (8285697561838739 / 18014398509481984)
  else nan

/-- A particle whose bounding rectangle is as narrow as binary64 allows: its left edge
is at 0, its right edge at `2^-1074`, the smallest positive number. -/
def sliverParticle : ParticleReport :=
  { PercentAreaToImageArea := 30, Area := 20000, ConvexHullArea := 21000,
    BoundingRectLeft := 0, BoundingRectTop := 50,
    BoundingRectRight := fin (2 ^ (-1074 : ℤ)), BoundingRectBottom := 170 }

/-! ## Arithmetic of finite doubles -/

namespace Dbl

theorem ofNat_eq (n : ℕ) : (OfNat.ofNat n : Dbl) = fin (n : ℚ) := rfl

theorem ofScientific_eq (m : ℕ) (s : Bool) (e : ℕ) :
    (OfScientific.ofScientific m s e : Dbl) = fin (OfScientific.ofScientific m s e) := rfl

theorem sub_eq (x y : Dbl) : x - y = sub x y := rfl

theorem mul_eq (x y : Dbl) : x * y = mul x y := rfl

theorem div_eq (x y : Dbl) : x / y = div x y := rfl

theorem mk_of_ne (s : Bool) {q : ℚ} (h : q ≠ 0) : mk s q = fin q := by
  simp [mk, h]

theorem sub_fin (a b : ℚ) : sub (fin a) (fin b) = fin (a - b) := by
  simp only [sub, isNaN, isInf, isPosInf, isNegInf, signBit, val, mk]
  simp
  intro h1 h2
  linarith [sub_eq_zero.mp h1]

theorem mul_fin_of_nonneg {a b : ℚ} (ha : 0 ≤ a) (hb : 0 ≤ b) :
    mul (fin a) (fin b) = fin (a * b) := by
  simp [mul, isNaN, isInf, isPosInf, isNegInf, signBit, val, mk, not_lt.mpr ha, not_lt.mpr hb]

theorem mul_fin_of_ne {a b : ℚ} (ha : a ≠ 0) (hb : b ≠ 0) :
    mul (fin a) (fin b) = fin (a * b) := by
  simp [mul, isNaN, isInf, isPosInf, isNegInf, signBit, val, mk, ha, hb]

theorem div_fin_of_ne {a b : ℚ} (ha : a ≠ 0) (hb : b ≠ 0) :
    div (fin a) (fin b) = fin (a / b) := by
  simp [div, isNaN, isInf, isPosInf, isNegInf, isZero, signBit, val, mk, ha, hb]

theorem div_fin_of_pos {a b : ℚ} (ha : 0 ≤ a) (hb : 0 < b) :
    div (fin a) (fin b) = fin (a / b) := by
  simp [div, isNaN, isInf, isPosInf, isNegInf, isZero, signBit, val, mk, hb.ne.symm,
    not_lt.mpr ha, not_lt.mpr hb.le]

theorem le_fin (a b : ℚ) : le (fin a) (fin b) = decide (a ≤ b) := by
  simp [le, isNaN, isPosInf, isNegInf, val]

theorem lt_fin (a b : ℚ) : lt (fin a) (fin b) = decide (a < b) := by
  simp [lt, isNaN, isPosInf, isNegInf, val]

theorem gt_fin (a b : ℚ) : gt (fin a) (fin b) = decide (b < a) := lt_fin b a

theorem fmin_fin (a b : ℚ) : fmin (fin a) (fin b) = fin (min a b) := by
  simp only [fmin, le_fin, isNaN, Bool.or_false, decide_eq_true_eq]
  split
  · rename_i h; rw [min_eq_left h]
  · rename_i h; rw [min_eq_right (le_of_lt (not_le.mp h))]

theorem fmax_fin (a b : ℚ) : fmax (fin a) (fin b) = fin (max a b) := by
  simp only [fmax, ge, le_fin, isNaN, Bool.or_false, decide_eq_true_eq]
  split
  · rename_i h; rw [max_eq_left h]
  · rename_i h; rw [max_eq_right (le_of_lt (not_le.mp h))]

/-! ## Division by zero and the infinities -/

theorem isZero_mk (s : Bool) (q : ℚ) : (mk s q).isZero = decide (q = 0) := by
  unfold mk
  split
  · rename_i h; simp [isZero, h.1]
  · rfl

theorem div_zero_zero {x y : Dbl} (hx : x.isZero = true) (hy : y.isZero = true) :
    div x y = nan := by
  have hxn : x.isNaN = false := by cases x <;> simp_all [isZero, isNaN]
  have hxi : x.isInf = false := by cases x <;> simp_all [isZero, isInf, isPosInf, isNegInf]
  have hyn : y.isNaN = false := by cases y <;> simp_all [isZero, isNaN]
  have hyi : y.isInf = false := by cases y <;> simp_all [isZero, isInf, isPosInf, isNegInf]
  unfold div
  simp [hxn, hxi, hyn, hyi, hx, hy]

theorem isNaN_fin (c : ℚ) : (fin c).isNaN = false := rfl

theorem isInf_fin (c : ℚ) : (fin c).isInf = false := rfl

theorem isZero_fin (c : ℚ) : (fin c).isZero = decide (c = 0) := rfl

end Dbl

/-! ## The score normalizer -/

theorem ratioToScore_fin (r : ℚ) :
    ratioToScore (fin r) = fin (max 0 (min (100 * (1 - |1 - r|)) 100)) := by
  have h100 : mul (fin 100) (fin (1 - |1 - r|)) = fin (100 * (1 - |1 - r|)) := by
    by_cases h : 1 - |1 - r| = 0
    · rw [h]; exact mul_fin_of_nonneg (by norm_num) le_rfl
    · exact mul_fin_of_ne (by norm_num) h
  simp only [ratioToScore, ofNat_eq, sub_eq, mul_eq, sub_fin, fabs, Nat.cast_ofNat,
    Nat.cast_one, Nat.cast_zero, h100]
  rw [fmin_fin, fmax_fin]

theorem ratioToScore_rising {r : ℚ} (h0 : 0 ≤ r) (h1 : r ≤ 1) :
    ratioToScore (fin r) = fin (100 * r) := by
  rw [ratioToScore_fin, abs_of_nonneg (by linarith), min_eq_left (by linarith),
    max_eq_right (by linarith)]
  congr 1; ring

theorem ratioToScore_falling {r : ℚ} (h1 : 1 ≤ r) (h2 : r ≤ 2) :
    ratioToScore (fin r) = fin (100 * (2 - r)) := by
  rw [ratioToScore_fin, abs_of_nonpos (by linarith), min_eq_left (by linarith),
    max_eq_right (by linarith)]
  congr 1; ring

theorem ratioToScore_outside {r : ℚ} (h : r < 0 ∨ 2 < r) :
    ratioToScore (fin r) = fin 0 := by
  rw [ratioToScore_fin]
  rcases h with h | h
  · rw [abs_of_nonneg (by linarith), min_eq_left (by linarith), max_eq_left (by linarith)]
  · rw [abs_of_nonpos (by linarith), min_eq_left (by linarith), max_eq_left (by linarith)]

theorem ratioToScore_negZero : ratioToScore negZero = fin 0 := by
  have h : (1 : Dbl) - negZero = 1 - fin 0 := by
    simp [sub_eq, ofNat_eq, sub, isNaN, isInf, isPosInf, isNegInf, signBit, val, mk]
  have h0 := ratioToScore_rising (le_refl (0 : ℚ)) (by norm_num)
  rw [mul_zero] at h0
  rw [← h0]
  unfold ratioToScore
  rw [h]

theorem ratioToScore_range (x : Dbl) : ∃ q : ℚ, ratioToScore x = fin q ∧ 0 ≤ q ∧ q ≤ 100 := by
  cases x with
  | fin r =>
    exact ⟨_, ratioToScore_fin r, le_max_left _ _, max_le (by norm_num) (min_le_right _ _)⟩
  | negZero => exact ⟨0, ratioToScore_negZero, le_rfl, by norm_num⟩
  | pinf => exact ⟨0, by decide, le_rfl, by norm_num⟩
  | ninf => exact ⟨0, by decide, le_rfl, by norm_num⟩
  | nan => exact ⟨100, by decide, by norm_num, le_rfl⟩

/-! ## Theorems on the score normalizer and the scorers -/

/-- C9: for a particle whose area equals its convex hull area, a positive number, the
hull-fill score `ConvexHullAreaScore` is `ratioToScore 1.18`, which is 82. -/
theorem ConvexHullAreaScore_filled (report : ParticleReport) (a : ℚ)
    (hA : report.Area = fin a) (hC : report.ConvexHullArea = fin a) (ha : 0 < a) :
    ConvexHullAreaScore report = ratioToScore 1.18 ∧ ratioToScore 1.18 = fin 82 := by
  have h82 : ratioToScore 1.18 = fin 82 := by
    have h := ratioToScore_falling (r := 1.18) (by norm_num) (by norm_num)
    rw [ofScientific_eq, h]
    norm_num
  refine ⟨?_, h82⟩
  unfold ConvexHullAreaScore
  rw [hA, hC, div_eq, div_fin_of_ne ha.ne.symm ha.ne.symm, div_self ha.ne.symm, mul_eq,
    ofScientific_eq, mul_fin_of_ne one_ne_zero (by norm_num), one_mul]

/-- Witness of C9: `filledParticle`, of area and convex hull area 50. -/
theorem ConvexHullAreaScore_filled_witness :
    ConvexHullAreaScore filledParticle = fin 82 := by
  have h := ConvexHullAreaScore_filled filledParticle 50 (by simp [filledParticle, ofNat_eq])
    (by simp [filledParticle, ofNat_eq]) (by norm_num)
  rw [h.1, h.2]

theorem ratioToScore_nan : ratioToScore nan = fin 100 := by decide

theorem pointParticle_scores :
    TrapezoidScore pointParticle = fin 100 ∧ LongSideScore pointParticle = fin 100 ∧
    ShortSideScore pointParticle = fin 100 ∧ ConvexHullAreaScore pointParticle = fin 100 := by
  have hsub : (10 : Dbl) - 10 = fin 0 := by simp [ofNat_eq, sub_eq, sub_fin]
  have hdiv : (0 : Dbl) / 0 = nan := by decide
  have hmul : nan * (1.18 : Dbl) = nan := rfl
  have hbox : fin 0 * fin 0 * (0.954 : Dbl) = fin 0 := by
    rw [mul_eq, mul_eq, mul_fin_of_nonneg le_rfl le_rfl, ofScientific_eq,
      mul_fin_of_nonneg (by norm_num) (by norm_num)]
    norm_num
  refine ⟨?_, ?_, ?_, ?_⟩
  · show ratioToScore ((0 : Dbl) / (((10 : Dbl) - 10) * ((10 : Dbl) - 10) * 0.954)) = fin 100
    rw [hsub, hbox]
    exact ratioToScore_nan
  · show ratioToScore ((((10 : Dbl) - 10) / ((10 : Dbl) - 10)) / LONG_RATIO) = fin 100
    rw [hsub]
    exact ratioToScore_nan
  · show ratioToScore ((((10 : Dbl) - 10) / ((10 : Dbl) - 10)) / SHORT_RATIO) = fin 100
    rw [hsub]
    exact ratioToScore_nan
  · show ratioToScore (((0 : Dbl) / 0) * 1.18) = fin 100
    rw [hdiv, hmul, ratioToScore_nan]

theorem isTote_all_hundred : isTote ⟨fin 100, fin 100, fin 100, fin 100⟩ = true := by
  simp only [isTote, SCORE_MIN, ofScientific_eq, gt_fin]
  norm_num

theorem isLong_all_hundred : isLong ⟨fin 100, fin 100, fin 100, fin 100⟩ = false := by
  simp only [isLong, gt_fin]
  norm_num

/-- C2: the classification of a particle follows the stated rules.  Each of its four
scores is a finite number, and for every set of finite scores `isTote` holds exactly
when the trapezoid score exceeds 75 (`SCORE_MIN`), the long or the short aspect score
exceeds 75, and the hull-fill score exceeds 75; `isLong` holds exactly when the long
aspect score exceeds the short one.  Scores 80, 80, 10, 80 give a long tote; scores
80, 10, 10, 80 give no tote. -/
theorem classification_rule (report : ParticleReport)
    (trapezoid longAspect shortAspect hullFill : ℚ) :
    SCORE_MIN = fin 75 ∧
    (∃ t l s h : ℚ, TrapezoidScore report = fin t ∧ LongSideScore report = fin l ∧
      ShortSideScore report = fin s ∧ ConvexHullAreaScore report = fin h) ∧
    (isTote ⟨fin trapezoid, fin longAspect, fin shortAspect, fin hullFill⟩ = true ↔
      75 < trapezoid ∧ (75 < longAspect ∨ 75 < shortAspect) ∧ 75 < hullFill) ∧
    (isLong ⟨fin trapezoid, fin longAspect, fin shortAspect, fin hullFill⟩ = true ↔
      shortAspect < longAspect) ∧
    isTote ⟨80, 80, 10, 80⟩ = true ∧ isLong ⟨80, 80, 10, 80⟩ = true ∧
    isTote ⟨80, 10, 10, 80⟩ = false := by
  have hmin : SCORE_MIN = fin 75 := by
    rw [SCORE_MIN, ofScientific_eq]; norm_num
  refine ⟨hmin, ?_, ?_, ?_, ?_, ?_, ?_⟩
  · obtain ⟨t, ht, _⟩ := ratioToScore_range (report.ConvexHullArea /
      ((report.BoundingRectRight - report.BoundingRectLeft) *
        (report.BoundingRectBottom - report.BoundingRectTop) * 0.954))
    obtain ⟨l, hl, _⟩ := ratioToScore_range (((report.BoundingRectRight -
      report.BoundingRectLeft) / (report.BoundingRectBottom - report.BoundingRectTop)) /
      LONG_RATIO)
    obtain ⟨s, hs, _⟩ := ratioToScore_range (((report.BoundingRectRight -
      report.BoundingRectLeft) / (report.BoundingRectBottom - report.BoundingRectTop)) /
      SHORT_RATIO)
    obtain ⟨h, hh, _⟩ := ratioToScore_range ((report.Area / report.ConvexHullArea) * 1.18)
    exact ⟨t, l, s, h, ht, hl, hs, hh⟩
  · simp only [isTote, hmin, gt_fin, Bool.and_eq_true, Bool.or_eq_true, decide_eq_true_eq]
    tauto
  · simp only [isLong, gt_fin, decide_eq_true_eq]
  · simp only [isTote, hmin, ofNat_eq, Nat.cast_ofNat, gt_fin]
    norm_num
  · simp only [isLong, ofNat_eq, Nat.cast_ofNat, gt_fin]
    norm_num
  · simp only [isTote, hmin, ofNat_eq, Nat.cast_ofNat, gt_fin]
    norm_num

/-! ## Theorems on the ranking -/

namespace Dbl

theorem lt_irrefl (x : Dbl) : lt x x = false := by
  cases x <;> simp [lt, isNaN, isPosInf, isNegInf, val]

theorem lt_trans {x y z : Dbl} (h1 : lt x y = true) (h2 : lt y z = true) : lt x z = true := by
  cases x <;> cases y <;> cases z <;>
    simp_all [lt, isNaN, isPosInf, isNegInf, val] <;> linarith

theorem lt_false_iff_le {x y : Dbl} (hx : x.isNaN = false) (hy : y.isNaN = false) :
    lt x y = false ↔ le y x = true := by
  cases x <;> cases y <;> simp_all [lt, le, isNaN, isPosInf, isNegInf, val]

theorem le_trans {x y z : Dbl} (h1 : le x y = true) (h2 : le y z = true) : le x z = true := by
  cases x <;> cases y <;> cases z <;>
    simp_all [le, isNaN, isPosInf, isNegInf, val] <;> linarith

end Dbl

theorem CompareParticleSizes_strictWeakOrder (l : List ParticleReport)
    (hnan : ∀ p ∈ l, p.PercentAreaToImageArea.isNaN = false) :
    StrictWeakOrderOn CompareParticleSizes l := by
  refine ⟨fun a _ => lt_irrefl _, fun a _ b _ c _ hab hbc => lt_trans hbc hab,
    fun a ha b hb c hc hab hba hbc hcb => ?_⟩
  simp only [CompareParticleSizes, gt] at *
  have na := hnan a ha
  have nb := hnan b hb
  have nc := hnan c hc
  rw [lt_false_iff_le nb na] at hab
  rw [lt_false_iff_le na nb] at hba
  rw [lt_false_iff_le nc nb] at hbc
  rw [lt_false_iff_le nb nc] at hcb
  rw [lt_false_iff_le nc na, lt_false_iff_le na nc]
  exact ⟨le_trans hab hbc, le_trans hcb hba⟩

theorem vectorAt_cons_zero (p : ParticleReport) (rest : List ParticleReport) :
    vectorAt (p :: rest) 0 = .ok p := rfl

theorem vectorAt_nil (n : Nat) : vectorAt [] n = .error "out_of_range" := rfl

theorem ranked_head_largest
    (sort : (ParticleReport → ParticleReport → Bool) → List ParticleReport → List ParticleReport)
    (hsort : StdSort sort) (l : List ParticleReport) (hne : l ≠ [])
    (hnan : ∀ p ∈ l, p.PercentAreaToImageArea.isNaN = false) :
    ∃ p, vectorAt (sort CompareParticleSizes l) 0 = .ok p ∧ p ∈ l ∧
      ∀ q ∈ l, ge p.PercentAreaToImageArea q.PercentAreaToImageArea = true := by
  obtain ⟨hperm, hsorted⟩ := hsort CompareParticleSizes l
    (CompareParticleSizes_strictWeakOrder l hnan)
  cases hr : sort CompareParticleSizes l with
  | nil =>
    rw [hr] at hperm
    exact absurd hperm.symm.eq_nil hne
  | cons p rest =>
    rw [hr] at hperm hsorted
    have hp : p ∈ l := hperm.mem_iff.mp (List.mem_cons_self _ _)
    refine ⟨p, rfl, hp, fun q hq => ?_⟩
    have hlt : lt p.PercentAreaToImageArea q.PercentAreaToImageArea = false := by
      rcases List.mem_cons.mp (hperm.mem_iff.mpr hq) with rfl | hq'
      · exact lt_irrefl _
      · exact (List.pairwise_cons.mp hsorted).1 q hq'
    exact (lt_false_iff_le (hnan p hp) (hnan q hq)).mp hlt

/-! ## The insertion sort of libstdc++ on short vectors -/

namespace Dbl

theorem mul_fin_of_pos_left {a b : ℚ} (ha : 0 < a) : mul (fin a) (fin b) = fin (a * b) := by
  by_cases hb : b = 0
  · subst hb; exact mul_fin_of_nonneg ha.le le_rfl
  · exact mul_fin_of_ne ha.ne.symm hb

theorem mul_fin_of_pos_right {a b : ℚ} (hb : 0 < b) : mul (fin a) (fin b) = fin (a * b) := by
  by_cases ha : a = 0
  · subst ha; exact mul_fin_of_nonneg le_rfl hb.le
  · exact mul_fin_of_ne ha hb.ne.symm

theorem div_fin_of_pos_right {a b : ℚ} (hb : 0 < b) : div (fin a) (fin b) = fin (a / b) := by
  by_cases ha : a = 0
  · subst ha; exact div_fin_of_pos le_rfl hb
  · exact div_fin_of_ne ha hb.ne.symm

theorem div_fin_zero_of_pos {c : ℚ} (hc : 0 < c) : div (fin c) (fin 0) = pinf := by
  simp [div, isNaN, isInf, isPosInf, isNegInf, isZero, signBit, signedInf, hc.ne.symm,
    not_lt.mpr hc.le]

theorem zeroOrNaN_nan : zeroOrNaN nan = true := rfl

theorem zeroOrNaN_mk_zero (s : Bool) : zeroOrNaN (mk s 0) = true := by
  simp [zeroOrNaN, isZero_mk]

theorem zeroOrNaN_cases {x : Dbl} (h : zeroOrNaN x = true) :
    x = nan ∨ (x.isNaN = false ∧ x.isInf = false ∧ x.isZero = true ∧ x.val = 0) := by
  cases x <;> simp_all [zeroOrNaN, isZero, isNaN, isInf, isPosInf, isNegInf, val]

theorem zeroOrNaN_sub_self (x : Dbl) : zeroOrNaN (sub x x) = true := by
  cases x with
  | fin q =>
    rw [sub_fin, sub_self]
    exact zeroOrNaN_mk_zero false
  | negZero =>
    simp [sub, isNaN, isInf, isPosInf, isNegInf, signBit, val, zeroOrNaN_mk_zero]
  | pinf => rfl
  | ninf => rfl
  | nan => rfl

theorem zeroOrNaN_mul_left {x : Dbl} (y : Dbl) (hx : zeroOrNaN x = true) :
    zeroOrNaN (mul x y) = true := by
  rcases zeroOrNaN_cases hx with rfl | ⟨hn, hi, hz, hv⟩
  · rfl
  · unfold mul
    cases hyn : y.isNaN <;> cases hyi : y.isInf <;>
      simp [hn, hi, hz, hv, zeroOrNaN_nan, zeroOrNaN_mk_zero]

theorem zeroOrNaN_mul_right (x : Dbl) {y : Dbl} (hy : zeroOrNaN y = true) :
    zeroOrNaN (mul x y) = true := by
  rcases zeroOrNaN_cases hy with rfl | ⟨hn, hi, hz, hv⟩
  · unfold mul
    simp [isNaN, zeroOrNaN_nan]
  · unfold mul
    cases hxn : x.isNaN <;> cases hxi : x.isInf <;>
      simp [hn, hi, hz, hv, zeroOrNaN_nan, zeroOrNaN_mk_zero]

theorem zeroOrNaN_div_fin {x : Dbl} (c : ℚ) (hx : zeroOrNaN x = true) :
    zeroOrNaN (div x (fin c)) = true := by
  rcases zeroOrNaN_cases hx with rfl | ⟨hn, hi, hz, hv⟩
  · rfl
  · unfold div
    by_cases hc : c = 0 <;>
      simp [hn, hi, hz, hv, hc, isNaN_fin, isInf_fin, isZero_fin, zeroOrNaN_nan,
        zeroOrNaN_mk_zero]

theorem not_isFinite_signedInf (s : Bool) : (signedInf s).isFinite = false := by
  cases s <;> rfl

theorem not_isFinite_div {c : ℚ} {y : Dbl} (hc : c ≠ 0) (hy : zeroOrNaN y = true) :
    (div (fin c) y).isFinite = false := by
  rcases zeroOrNaN_cases hy with rfl | ⟨hn, hi, hz, hv⟩
  · rfl
  · unfold div
    simp only [hn, hi, hz, isNaN_fin, isInf_fin, isZero_fin, hc, Bool.or_self,
      Bool.false_eq_true, if_false, if_true, decide_False]
    exact not_isFinite_signedInf _

end Dbl

theorem normalizedWidth_fin {report : ParticleReport} {l r : ℚ} {xRes : Int}
    (hL : report.BoundingRectLeft = fin l) (hR : report.BoundingRectRight = fin r)
    (hx : 0 < xRes) : normalizedWidth xRes report = fin (2 * (r - l) / xRes) := by
  have hxq : (0 : ℚ) < xRes := by exact_mod_cast hx
  rw [normalizedWidth, hL, hR, sub_eq, sub_fin, ofNat_eq, mul_eq,
    mul_fin_of_pos_left (by norm_num), div_eq, ofInt, div_fin_of_pos_right hxq]
  norm_num

/-- C6, as the code has it: `computeDistance` has no guard and no sentinel.  For a
particle with `BoundingRectRight = BoundingRectLeft` its result is never a finite
number, whatever the image width, the orientation and `tan`: the divisor is a zero or
a NaN, and the quotient an infinity or a NaN.  When the edge is a finite number, the
image width positive and `tan` of half the view angle a positive number, the result
is `+inf`. -/
theorem computeDistance_degenerate (tan : Dbl → Dbl) (M_PI : Dbl) (xRes : Int)
    (report : ParticleReport) (isLong : Bool)
    (h : report.BoundingRectRight = report.BoundingRectLeft) :
    (computeDistance tan M_PI xRes report isLong).isFinite = false ∧
    (∀ e tanHalf : ℚ, report.BoundingRectLeft = fin e → 0 < xRes →
      tan (VIEW_ANGLE * M_PI / ofInt (180 * 2)) = fin tanHalf → 0 < tanHalf →
      normalizedWidth xRes report = fin 0 ∧
      computeDistance tan M_PI xRes report isLong = pinf) := by
  constructor
  · have hnw : zeroOrNaN (normalizedWidth xRes report) = true := by
      rw [normalizedWidth, h]
      exact zeroOrNaN_div_fin _ (zeroOrNaN_mul_right _ (zeroOrNaN_sub_self _))
    have hden := zeroOrNaN_mul_left (tan (VIEW_ANGLE * M_PI / ofInt (180 * 2)))
      (zeroOrNaN_mul_left 12 hnw)
    simp only [computeDistance]
    cases isLong
    · exact not_isFinite_div (by norm_num) hden
    · exact not_isFinite_div (by norm_num) hden
  · intro e tanHalf hL hx htan ht
    have hnw : normalizedWidth xRes report = fin 0 := by
      rw [normalizedWidth_fin hL (h.trans hL) hx]
      simp
    refine ⟨hnw, ?_⟩
    simp only [computeDistance]
    rw [hnw, htan, ofNat_eq, mul_eq, mul_eq, mul_fin_of_nonneg le_rfl (by norm_num), zero_mul,
      mul_fin_of_nonneg le_rfl ht.le, zero_mul, div_eq]
    cases isLong
    · simp only [Bool.false_eq_true, if_false, ofScientific_eq]
      exact div_fin_zero_of_pos (by norm_num)
    · simp only [if_true, ofScientific_eq]
      exact div_fin_zero_of_pos (by norm_num)

/-- Witness of C6: `pointParticle` (left and right edge 10) in an image 400
pixels wide. -/
theorem computeDistance_degenerate_witness :
    (computeDistance tanSample M_PI_sample 400 pointParticle true).isFinite = false :=
  (computeDistance_degenerate tanSample M_PI_sample 400 pointParticle true rfl).1

/-- C6, counterexample: for `pointParticle`, whose right and left edges are both 10, in
an image 400 pixels wide, the normalized width is 0 and `computeDistance` returns
`+inf`, a non-finite value; no sentinel is returned.  A cycle whose one particle is
`pointParticle` writes that `+inf` to the dashboard as the distance. -/
theorem computeDistance_returns_infinity :
    pointParticle.BoundingRectRight = pointParticle.BoundingRectLeft ∧
    normalizedWidth 400 pointParticle = fin 0 ∧
    computeDistance tanSample M_PI_sample 400 pointParticle true = pinf ∧
    computeDistance tanSample M_PI_sample 400 pointParticle false = pinf ∧
    pinf.isFinite = false ∧
    TeleopPeriodicParticles sortTiesReversed tanSample M_PI_sample (fun _ => pointParticle)
        400 ⟨0, 0, 0, 0⟩ 1 =
      .ok
        { scores := ⟨fin 100, fin 100, fin 100, fin 100⟩
          dashboard :=
            [("Trapezoid", .number (fin 100)), ("Long Aspect", .number (fin 100)),
             ("Short Aspect", .number (fin 100)), ("Convex Hull Area", .number (fin 100)),
             ("IsTote", .boolean true), ("Width", .number (fin 0)),
             ("Distance", .number pinf)] } := by
  have hnw : normalizedWidth 400 pointParticle = fin 0 := by
    rw [normalizedWidth_fin (l := 10) (r := 10) rfl rfl (by norm_num)]
    simp
  have hd : ∀ long : Bool,
      computeDistance tanSample M_PI_sample 400 pointParticle long = pinf := by
    intro long
    simp only [computeDistance, tanSample, ofScientific_eq]
    rw [hnw, ofNat_eq, mul_eq, mul_eq, mul_fin_of_nonneg le_rfl (by norm_num), zero_mul,
      mul_fin_of_nonneg le_rfl (by norm_num), zero_mul, div_eq]
    cases long
    · simp only [Bool.false_eq_true, if_false]
      exact div_fin_zero_of_pos (by norm_num)
    · simp only [if_true]
      exact div_fin_zero_of_pos (by norm_num)
  refine ⟨rfl, hnw, hd true, hd false, rfl, ?_⟩
  obtain ⟨ht, hl, hs, hh⟩ := pointParticle_scores
  have hp : vectorAt (sortTiesReversed CompareParticleSizes
      (measureParticles (fun _ => pointParticle) 1)) 0 = .ok pointParticle := rfl
  have h1 : (1 : Int) > 0 := by decide
  simp only [TeleopPeriodicParticles, hp, h1, if_true, bind, Except.bind, pure, Except.pure,
    ht, hl, hs, hh, isTote_all_hundred, isLong_all_hundred, hnw, hd]

/-! ## Theorems on the cycle -/

theorem measureParticles_ne_nil (measure : Nat → ParticleReport) {numParticles : Int}
    (h : 0 < numParticles) : measureParticles measure numParticles ≠ [] := by
  have hpos : 0 < numParticles.toNat := by omega
  intro hnil
  have hlen := congrArg List.length hnil
  simp [measureParticles] at hlen
  omega

/-- With particles in the frame, a `sort` that meets the guarantee of `std::sort` and
no NaN percent area, the analysis does not throw: it scores, classifies and
measures one particle of the largest percent area. -/
theorem particles_analysed
    (sort : (ParticleReport → ParticleReport → Bool) → List ParticleReport → List ParticleReport)
    (hsort : StdSort sort) (tan : Dbl → Dbl) (M_PI : Dbl) (measure : Nat → ParticleReport)
    (xRes : Int) (scores : Scores) (numParticles : Int) (hn : 0 < numParticles)
    (hnan : ∀ i, (measure i).PercentAreaToImageArea.isNaN = false) :
    ∃ p, p ∈ measureParticles measure numParticles ∧
      (∀ q ∈ measureParticles measure numParticles,
        ge p.PercentAreaToImageArea q.PercentAreaToImageArea = true) ∧
      TeleopPeriodicParticles sort tan M_PI measure xRes scores numParticles =
        .ok
          { scores := ⟨TrapezoidScore p, LongSideScore p, ShortSideScore p,
              ConvexHullAreaScore p⟩
            dashboard :=
              [("Trapezoid", .number (TrapezoidScore p)),
               ("Long Aspect", .number (LongSideScore p)),
               ("Short Aspect", .number (ShortSideScore p)),
               ("Convex Hull Area", .number (ConvexHullAreaScore p)),
               ("IsTote", .boolean (isTote ⟨TrapezoidScore p, LongSideScore p,
                  ShortSideScore p, ConvexHullAreaScore p⟩)),
               ("Width", .number (normalizedWidth xRes p)),
               ("Distance", .number (computeDistance tan M_PI xRes p
                  (isLong ⟨TrapezoidScore p, LongSideScore p, ShortSideScore p,
                    ConvexHullAreaScore p⟩)))] } := by
  have hn' : ∀ q ∈ measureParticles measure numParticles,
      q.PercentAreaToImageArea.isNaN = false := by
    intro q hq
    simp only [measureParticles, List.mem_map] at hq
    obtain ⟨i, _, rfl⟩ := hq
    exact hnan i
  obtain ⟨p, hp0, hpm, hmax⟩ := ranked_head_largest sort hsort _
    (measureParticles_ne_nil measure hn) hn'
  refine ⟨p, hpm, hmax, ?_⟩
  simp only [TeleopPeriodicParticles, hn, if_true, hp0]
  rfl

/-- C7: when the frame has no particles (`numParticles = 0`, or any count that is not
positive), the analysis writes `IsTote = false` to the dashboard and nothing else: no
score and no distance is computed or written, the member `scores` is left as it was,
and nothing is thrown (`particles.at(0)`, which throws on an empty vector, is not
evaluated), whatever `sort`, `tan` and the measurements are. -/
theorem no_particles_no_target
    (sort : (ParticleReport → ParticleReport → Bool) → List ParticleReport → List ParticleReport)
    (tan : Dbl → Dbl) (M_PI : Dbl) (measure : Nat → ParticleReport) (xRes : Int)
    (scores : Scores) :
    TeleopPeriodicParticles sort tan M_PI measure xRes scores 0 =
      .ok { scores := scores, dashboard := [("IsTote", .boolean false)] } ∧
    (∀ numParticles : Int, numParticles ≤ 0 →
      TeleopPeriodicParticles sort tan M_PI measure xRes scores numParticles =
        .ok { scores := scores, dashboard := [("IsTote", .boolean false)] }) ∧
    (∀ v, ("Distance", v) ∉ [("IsTote", DashValue.boolean false)]) ∧
    measureParticles measure 0 = [] ∧
    vectorAt [] 0 = .error "out_of_range" := by
  have h : ∀ numParticles : Int, numParticles ≤ 0 →
      TeleopPeriodicParticles sort tan M_PI measure xRes scores numParticles =
        .ok { scores := scores, dashboard := [("IsTote", .boolean false)] } := by
    intro n hn
    simp [TeleopPeriodicParticles, not_lt.mpr hn, pure, Except.pure]
  refine ⟨h 0 le_rfl, h, ?_, rfl, rfl⟩
  intro v
  simp

/-! ## Rounding to the nearest integer -/

namespace Dbl

theorem roundHalfEven_mem (x : ℚ) :
    roundHalfEven x = ⌊x⌋ ∨ roundHalfEven x = ⌊x⌋ + 1 := by
  unfold roundHalfEven
  split_ifs <;> simp

theorem roundHalfEven_intCast (n : ℤ) : roundHalfEven (n : ℚ) = n := by
  unfold roundHalfEven
  simp

theorem abs_roundHalfEven_sub_le (x : ℚ) : |(roundHalfEven x : ℚ) - x| ≤ 1 / 2 := by
  have h1 : (⌊x⌋ : ℚ) ≤ x := Int.floor_le x
  have h2 : x < ⌊x⌋ + 1 := Int.lt_floor_add_one x
  unfold roundHalfEven
  split_ifs with ha hb hc
  · rw [abs_le]; constructor <;> linarith
  · rw [abs_le]; push_cast; constructor <;> linarith
  · have : x - ⌊x⌋ = 1 / 2 := le_antisymm (not_lt.mp hb) (not_lt.mp ha)
    rw [abs_le]; constructor <;> linarith
  · have : x - ⌊x⌋ = 1 / 2 := le_antisymm (not_lt.mp hb) (not_lt.mp ha)
    rw [abs_le]; push_cast; constructor <;> linarith

theorem roundHalfEven_mono {x y : ℚ} (h : x ≤ y) : roundHalfEven x ≤ roundHalfEven y := by
  have hf : ⌊x⌋ ≤ ⌊y⌋ := Int.floor_mono h
  rcases lt_or_eq_of_le hf with hlt | heq
  · have hx : roundHalfEven x ≤ ⌊x⌋ + 1 := by
      rcases roundHalfEven_mem x with h1 | h1 <;> omega
    have hy : ⌊y⌋ ≤ roundHalfEven y := by
      rcases roundHalfEven_mem y with h1 | h1 <;> omega
    omega
  · have hfr : x - ⌊x⌋ ≤ y - ⌊y⌋ := by
      rw [heq]; linarith
    unfold roundHalfEven
    rw [heq]
    split_ifs <;> first | omega | (exfalso; linarith)

theorem roundHalfEven_eq_of_abs_lt {x : ℚ} {n : ℤ} (h : |x - n| < 1 / 2) :
    roundHalfEven x = n := by
  have h1 := abs_roundHalfEven_sub_le x
  have h2 : |((roundHalfEven x : ℤ) : ℚ) - n| < 1 := by
    calc |((roundHalfEven x : ℤ) : ℚ) - n|
        = |((roundHalfEven x : ℚ) - x) + (x - n)| := by ring_nf
      _ ≤ |(roundHalfEven x : ℚ) - x| + |x - n| := abs_add _ _
      _ < 1 := by linarith
  have h3 : |roundHalfEven x - n| < 1 := by
    have : ((|roundHalfEven x - n| : ℤ) : ℚ) < 1 := by
      push_cast; exact h2
    exact_mod_cast this
  have := Int.abs_lt_one_iff.mp h3
  omega

theorem roundHalfEven_le_of_le {x : ℚ} {n : ℤ} (h : x ≤ n) : roundHalfEven x ≤ n := by
  have := roundHalfEven_mono h
  rwa [roundHalfEven_intCast] at this

theorem le_roundHalfEven_of_le {x : ℚ} {n : ℤ} (h : (n : ℚ) ≤ x) : n ≤ roundHalfEven x := by
  have := roundHalfEven_mono h
  rwa [roundHalfEven_intCast] at this

end Dbl

/-! ## The unit in the last place -/

namespace Dbl

theorem two_zpow_pos (e : ℤ) : (0 : ℚ) < 2 ^ e := zpow_pos (by norm_num) e

theorem log_eq_of_bounds {q : ℚ} {e : ℤ} (h1 : (2 : ℚ) ^ e ≤ q) (h2 : q < 2 ^ (e + 1)) :
    Int.log 2 q = e := by
  have hq : 0 < q := lt_of_lt_of_le (two_zpow_pos e) h1
  have a : e ≤ Int.log 2 q :=
    (Int.zpow_le_iff_le_log (b := 2) (by norm_num) hq).mp (by simpa using h1)
  have b : Int.log 2 q < e + 1 :=
    (Int.lt_zpow_iff_log_lt (b := 2) (by norm_num) hq).mp (by simpa using h2)
  omega

theorem zpow_log_le {q : ℚ} (hq : 0 < q) : (2 : ℚ) ^ Int.log 2 q ≤ q := by
  simpa using Int.zpow_log_le_self (b := 2) (by norm_num) hq

theorem lt_zpow_log_succ (q : ℚ) : q < (2 : ℚ) ^ (Int.log 2 q + 1) := by
  simpa using Int.lt_zpow_succ_log_self (b := 2) (by norm_num) q

theorem ulpExp_zero : ulpExp 0 = -1074 := by simp [ulpExp]

theorem ulpExp_ge (q : ℚ) : -1074 ≤ ulpExp q := by
  unfold ulpExp
  split
  · exact le_rfl
  · have := le_max_right (Int.log 2 |q|) (-1022)
    omega

theorem ulpExp_of_bounds {q : ℚ} {e : ℤ} (he : -1022 ≤ e) (h1 : (2 : ℚ) ^ e ≤ |q|)
    (h2 : |q| < 2 ^ (e + 1)) : ulpExp q = e - 52 := by
  have hq : q ≠ 0 := by
    intro h
    rw [h, abs_zero] at h1
    exact absurd h1 (not_le.mpr (two_zpow_pos e))
  unfold ulpExp
  rw [if_neg hq, log_eq_of_bounds h1 h2, max_eq_left he]

theorem ulpExp_of_small {q : ℚ} (h : |q| < 2 ^ (-1022 : ℤ)) : ulpExp q = -1074 := by
  unfold ulpExp
  split
  · rfl
  · rename_i hq
    have hpos : 0 < |q| := abs_pos.mpr hq
    have hl : Int.log 2 |q| < -1022 :=
      (Int.lt_zpow_iff_log_lt (b := 2) (by norm_num) hpos).mp (by simpa using h)
    rw [max_eq_right hl.le]
    norm_num

/-- Above the subnormal range the magnitude of `q` is at least `2^52` units. -/
theorem zpow_le_abs_of_ulpExp {q : ℚ} (h : -1074 < ulpExp q) :
    (2 : ℚ) ^ (ulpExp q + 52) ≤ |q| := by
  unfold ulpExp at h ⊢
  split at h
  · omega
  · rename_i hq
    rw [if_neg hq]
    have hpos : 0 < |q| := abs_pos.mpr hq
    have hl : -1022 < Int.log 2 |q| := by
      by_contra hcon
      rw [max_eq_right (not_lt.mp hcon)] at h
      omega
    rw [max_eq_left hl.le]
    have : Int.log 2 |q| - 52 + 52 = Int.log 2 |q| := by ring
    rw [this]
    exact zpow_log_le hpos

/-- The magnitude of `q` is below `2^53` units. -/
theorem abs_lt_zpow_ulpExp (q : ℚ) : |q| < (2 : ℚ) ^ (ulpExp q + 53) := by
  unfold ulpExp
  split
  · rename_i hq
    rw [hq, abs_zero]
    exact two_zpow_pos _
  · have h1 := lt_zpow_log_succ |q|
    refine lt_of_lt_of_le h1 ?_
    apply zpow_le_zpow_right₀ (by norm_num)
    have := le_max_left (Int.log 2 |q|) (-1022)
    omega

theorem ulpExp_neg (q : ℚ) : ulpExp (-q) = ulpExp q := by
  unfold ulpExp
  simp

/-- The unit in the last place does not shrink as the magnitude grows. -/
theorem ulpExp_mono {x y : ℚ} (h : |x| ≤ |y|) : ulpExp x ≤ ulpExp y := by
  by_cases hx : x = 0
  · rw [hx, ulpExp_zero]; exact ulpExp_ge y
  have hxp : 0 < |x| := abs_pos.mpr hx
  have hy : y ≠ 0 := by
    intro hy0
    rw [hy0, abs_zero] at h
    exact absurd h (not_le.mpr hxp)
  unfold ulpExp
  rw [if_neg hx, if_neg hy]
  have := Int.log_mono_right (b := 2) hxp h
  have := max_le_max_right (-1022) this
  omega

end Dbl

/-! ## Rounding to the binary64 grid -/

namespace Dbl

theorem rnd_zero : rnd 0 = 0 := by simp [rnd, roundHalfEven]

/-- A multiple of the unit in the last place is not moved. -/
theorem rnd_of_grid {q : ℚ} (z : ℤ) (h : q = z * 2 ^ ulpExp q) : rnd q = q := by
  have hu := two_zpow_pos (ulpExp q)
  have hz : q / 2 ^ ulpExp q = z := by
    rw [div_eq_iff hu.ne.symm]; exact h
  unfold rnd
  rw [hz, roundHalfEven_intCast]
  exact h.symm

/-- Rounding does not cross a multiple of the unit in the last place. -/
theorem rnd_le_of_le_grid {q p : ℚ} (z : ℤ) (hp : p = z * 2 ^ ulpExp q) (h : q ≤ p) :
    rnd q ≤ p := by
  have hu := two_zpow_pos (ulpExp q)
  have hz : q / 2 ^ ulpExp q ≤ z := by
    rw [div_le_iff₀ hu]; rw [← hp]; exact h
  have := roundHalfEven_le_of_le hz
  unfold rnd
  rw [hp]
  exact mul_le_mul_of_nonneg_right (by exact_mod_cast this) hu.le

theorem le_rnd_of_grid_le {q p : ℚ} (z : ℤ) (hp : p = z * 2 ^ ulpExp q) (h : p ≤ q) :
    p ≤ rnd q := by
  have hu := two_zpow_pos (ulpExp q)
  have hz : (z : ℚ) ≤ q / 2 ^ ulpExp q := by
    rw [le_div_iff₀ hu]; rw [← hp]; exact h
  have := le_roundHalfEven_of_le hz
  unfold rnd
  rw [hp]
  exact mul_le_mul_of_nonneg_right (by exact_mod_cast this) hu.le

theorem rnd_nonneg {q : ℚ} (h : 0 ≤ q) : 0 ≤ rnd q :=
  le_rnd_of_grid_le 0 (by simp) h

theorem rnd_nonpos {q : ℚ} (h : q ≤ 0) : rnd q ≤ 0 :=
  rnd_le_of_le_grid 0 (by simp) h

/-- The rounding error is at most half a unit in the last place. -/
theorem abs_rnd_sub_le (q : ℚ) : |rnd q - q| ≤ 2 ^ ulpExp q / 2 := by
  have hu := two_zpow_pos (ulpExp q)
  have h := abs_roundHalfEven_sub_le (q / 2 ^ ulpExp q)
  have e : rnd q - q = ((roundHalfEven (q / 2 ^ ulpExp q) : ℚ) - q / 2 ^ ulpExp q) *
      2 ^ ulpExp q := by
    unfold rnd
    field_simp
  rw [e, abs_mul, abs_of_pos hu]
  calc |(roundHalfEven (q / 2 ^ ulpExp q) : ℚ) - q / 2 ^ ulpExp q| * 2 ^ ulpExp q
      ≤ 1 / 2 * 2 ^ ulpExp q := mul_le_mul_of_nonneg_right h hu.le
    _ = 2 ^ ulpExp q / 2 := by ring

/-- A power of two times an integer that is a multiple of a lower power of two. -/
theorem zpow_grid (m : ℤ) {e u : ℤ} (h : u ≤ e) :
    (m : ℚ) * 2 ^ e = ((m * 2 ^ (e - u).toNat : ℤ) : ℚ) * 2 ^ u := by
  have hk : ((e - u).toNat : ℤ) = e - u := Int.toNat_of_nonneg (by omega)
  push_cast
  rw [mul_assoc, ← zpow_natCast, ← zpow_add₀ (by norm_num : (2 : ℚ) ≠ 0), hk]
  congr 2
  ring

/-- Every binary64 number, a significand of at most 53 bits times a power of two not
below the least, is not moved by the rounding. -/
theorem rnd_of_repr (m e : ℤ) (hm : |m| ≤ 2 ^ 53) (he : -1074 ≤ e) :
    rnd (m * 2 ^ e) = m * 2 ^ e := by
  set q : ℚ := m * 2 ^ e with hq
  by_cases hu : ulpExp q ≤ e
  · exact rnd_of_grid _ (zpow_grid m hu)
  · have hu' : e < ulpExp q := not_le.mp hu
    have h1 := zpow_le_abs_of_ulpExp (q := q) (by omega)
    have habs : |q| = (|m| : ℤ) * 2 ^ e := by
      rw [hq, abs_mul, abs_of_pos (two_zpow_pos e)]
      push_cast
      rfl
    have hmq : ((|m| : ℤ) : ℚ) ≤ 9007199254740992 := by exact_mod_cast hm
    have p53 : (2 : ℚ) ^ (e + 53) = 9007199254740992 * 2 ^ e := by
      rw [zpow_add₀ (by norm_num : (2 : ℚ) ≠ 0)]
      norm_num
      ring
    have h2 : |q| ≤ 2 ^ (e + 53) := by
      rw [habs, p53]
      exact mul_le_mul_of_nonneg_right hmq (two_zpow_pos e).le
    have h3 : ulpExp q + 52 ≤ e + 53 :=
      (zpow_le_zpow_iff_right₀ (by norm_num : (1 : ℚ) < 2)).mp (h1.trans h2)
    have hue : ulpExp q = e + 1 := by omega
    have h4 : (2 : ℚ) ^ (e + 53) ≤ |q| := by
      have : ulpExp q + 52 = e + 53 := by omega
      rwa [this] at h1
    have h5 : |q| = 2 ^ (e + 53) := le_antisymm h2 h4
    have h6 : (2 : ℚ) ^ (e + 53) = 4503599627370496 * 2 ^ ulpExp q := by
      rw [hue, show e + 53 = (e + 1) + 52 by ring, zpow_add₀ (by norm_num : (2 : ℚ) ≠ 0)]
      norm_num
      ring
    rcases abs_choice q with hc | hc
    · refine rnd_of_grid 4503599627370496 ?_
      have hq2 : q = 2 ^ (e + 53) := by rw [← h5, hc]
      rw [h6] at hq2
      have e2 : (4503599627370496 * (2 : ℚ) ^ ulpExp q) =
          ((4503599627370496 : ℤ) : ℚ) * 2 ^ ulpExp q := by
        push_cast; ring
      exact hq2.trans e2
    · refine rnd_of_grid (-4503599627370496) ?_
      have hq2 : q = -2 ^ (e + 53) := by rw [← h5, hc]; ring
      rw [h6] at hq2
      have e2 : -(4503599627370496 * (2 : ℚ) ^ ulpExp q) =
          ((-4503599627370496 : ℤ) : ℚ) * 2 ^ ulpExp q := by
        push_cast; ring
      exact hq2.trans e2

end Dbl

namespace Dbl

/-- The rounding is monotone. -/
theorem rnd_mono {x y : ℚ} (h : x ≤ y) : rnd x ≤ rnd y := by
  have two_ne : (2 : ℚ) ≠ 0 := by norm_num
  rcases lt_trichotomy (ulpExp x) (ulpExp y) with hlt | heq | hgt
  · have hP1 := zpow_le_abs_of_ulpExp (q := y) (by have := ulpExp_ge x; omega)
    have hP2 : |x| < 2 ^ (ulpExp y + 52) :=
      lt_of_lt_of_le (abs_lt_zpow_ulpExp x)
        (zpow_le_zpow_right₀ (by norm_num) (by omega))
    have hx : x ≤ 2 ^ (ulpExp y + 52) := (le_abs_self x).trans hP2.le
    have hy : (2 : ℚ) ^ (ulpExp y + 52) ≤ y := by
      rcases abs_choice y with hc | hc
      · rwa [hc] at hP1
      · exfalso
        rw [hc] at hP1
        have : (2 : ℚ) ^ (ulpExp y + 52) ≤ -x := by linarith
        have := this.trans (neg_le_abs x)
        linarith
    have gx : (2 : ℚ) ^ (ulpExp y + 52) =
        ((1 * 2 ^ (ulpExp y + 52 - ulpExp x).toNat : ℤ) : ℚ) * 2 ^ ulpExp x := by
      rw [← zpow_grid 1 (by omega : ulpExp x ≤ ulpExp y + 52)]
      simp
    have gy : (2 : ℚ) ^ (ulpExp y + 52) =
        ((1 * 2 ^ (ulpExp y + 52 - ulpExp y).toNat : ℤ) : ℚ) * 2 ^ ulpExp y := by
      rw [← zpow_grid 1 (by omega : ulpExp y ≤ ulpExp y + 52)]
      simp
    exact (rnd_le_of_le_grid _ gx hx).trans (le_rnd_of_grid_le _ gy hy)
  · have hu := two_zpow_pos (ulpExp y)
    unfold rnd
    rw [heq]
    have := roundHalfEven_mono (div_le_div_of_nonneg_right h hu.le)
    exact mul_le_mul_of_nonneg_right (by exact_mod_cast this) hu.le
  · have hP1 := zpow_le_abs_of_ulpExp (q := x) (by have := ulpExp_ge y; omega)
    have hP2 : |y| < 2 ^ (ulpExp x + 52) :=
      lt_of_lt_of_le (abs_lt_zpow_ulpExp y)
        (zpow_le_zpow_right₀ (by norm_num) (by omega))
    have hy : -(2 : ℚ) ^ (ulpExp x + 52) ≤ y := by
      have := neg_abs_le y
      linarith
    have hx : x ≤ -(2 : ℚ) ^ (ulpExp x + 52) := by
      rcases abs_choice x with hc | hc
      · exfalso
        rw [hc] at hP1
        have := le_abs_self y
        linarith
      · rw [hc] at hP1
        linarith
    have gx : -(2 : ℚ) ^ (ulpExp x + 52) =
        ((-1 * 2 ^ (ulpExp x + 52 - ulpExp x).toNat : ℤ) : ℚ) * 2 ^ ulpExp x := by
      rw [← zpow_grid (-1) (by omega : ulpExp x ≤ ulpExp x + 52)]
      simp
    have gy : -(2 : ℚ) ^ (ulpExp x + 52) =
        ((-1 * 2 ^ (ulpExp x + 52 - ulpExp y).toNat : ℤ) : ℚ) * 2 ^ ulpExp y := by
      rw [← zpow_grid (-1) (by omega : ulpExp y ≤ ulpExp x + 52)]
      simp
    exact (rnd_le_of_le_grid _ gx hx).trans (le_rnd_of_grid_le _ gy hy)

/-- A power of two, a binary64 number. -/
theorem rnd_two_zpow {k : ℤ} (hk : -1074 ≤ k) : rnd (2 ^ k) = 2 ^ k := by
  have := rnd_of_repr 1 k (by norm_num) hk
  simpa using this

theorem rnd_neg_two_zpow {k : ℤ} (hk : -1074 ≤ k) : rnd (-2 ^ k) = -2 ^ k := by
  have := rnd_of_repr (-1) k (by norm_num) hk
  simpa using this

/-- An integer of at most 53 bits. -/
theorem rnd_intCast (n : ℤ) (hn : |n| ≤ 2 ^ 53) : rnd (n : ℚ) = n := by
  have := rnd_of_repr n 0 hn (by norm_num)
  simpa using this

/-- A number of magnitude at most `2^k` is within `2^(k-54)` of its rounding. -/
theorem abs_rnd_sub_le_of_abs_le {q : ℚ} {k : ℤ} (hk : -1021 ≤ k) (h : |q| ≤ 2 ^ k) :
    |rnd q - q| ≤ 2 ^ (k - 54) := by
  rcases eq_or_lt_of_le h with heq | hlt
  · have hq : rnd q = q := by
      rcases abs_choice q with hc | hc
      · rw [hc] at heq
        rw [heq]
        exact rnd_two_zpow (by omega)
      · rw [hc] at heq
        have : q = -2 ^ k := by linarith
        rw [this]
        exact rnd_neg_two_zpow (by omega)
    rw [hq, sub_self, abs_zero]
    exact (two_zpow_pos _).le
  · have hu : ulpExp q ≤ k - 53 := by
      by_cases hs : -1074 < ulpExp q
      · have h1 := zpow_le_abs_of_ulpExp hs
        have : ulpExp q + 52 < k :=
          (zpow_lt_zpow_iff_right₀ (by norm_num : (1 : ℚ) < 2)).mp (lt_of_le_of_lt h1 hlt)
        omega
      · omega
    refine (abs_rnd_sub_le q).trans ?_
    have : (2 : ℚ) ^ ulpExp q / 2 = 2 ^ (ulpExp q - 1) := by
      rw [zpow_sub₀ (by norm_num : (2 : ℚ) ≠ 0)]
      norm_num
    rw [this]
    exact zpow_le_zpow_right₀ (by norm_num) (by omega)

/-- In the normal range the rounding error is at most `2^-53` of the magnitude. -/
theorem abs_rnd_sub_le_mul {q : ℚ} (h : (2 : ℚ) ^ (-1022 : ℤ) ≤ |q|) :
    |rnd q - q| ≤ 2 ^ (-53 : ℤ) * |q| := by
  have hpos : 0 < |q| := lt_of_lt_of_le (two_zpow_pos _) h
  have hq : q ≠ 0 := abs_pos.mp hpos
  have hl : -1022 ≤ Int.log 2 |q| :=
    (Int.zpow_le_iff_le_log (b := 2) (by norm_num) hpos).mp (by simpa using h)
  have hu : ulpExp q = Int.log 2 |q| - 52 := by
    unfold ulpExp
    rw [if_neg hq, max_eq_left hl]
  have h1 : (2 : ℚ) ^ (ulpExp q + 52) ≤ |q| := by
    rw [hu]
    have : Int.log 2 |q| - 52 + 52 = Int.log 2 |q| := by ring
    rw [this]
    exact zpow_log_le hpos
  refine (abs_rnd_sub_le q).trans ?_
  have : (2 : ℚ) ^ ulpExp q / 2 = 2 ^ (-53 : ℤ) * 2 ^ (ulpExp q + 52) := by
    rw [← zpow_add₀ (by norm_num : (2 : ℚ) ≠ 0), show (-53 : ℤ) + (ulpExp q + 52) =
      ulpExp q - 1 by ring, zpow_sub₀ (by norm_num : (2 : ℚ) ≠ 0)]
    norm_num
  rw [this]
  exact mul_le_mul_of_nonneg_left h1 (two_zpow_pos _).le

/-- Evaluation of the rounding: `q` lies in the binade of `2^e` and is within half a
unit of `n` units. -/
theorem rnd_eq {q : ℚ} (e n : ℤ) (he : -1022 ≤ e) (h1 : (2 : ℚ) ^ e ≤ |q|)
    (h2 : |q| < 2 ^ (e + 1)) (hn : |q / 2 ^ (e - 52) - n| < 1 / 2) :
    rnd q = n * 2 ^ (e - 52) := by
  unfold rnd
  rw [ulpExp_of_bounds he h1 h2, roundHalfEven_eq_of_abs_lt hn]

/-- A number of magnitude at most `2^k` rounds to one of magnitude at most `2^k`. -/
theorem abs_rnd_le {q : ℚ} {k : ℤ} (hk : -1074 ≤ k) (h : |q| ≤ 2 ^ k) : |rnd q| ≤ 2 ^ k := by
  rw [abs_le] at h ⊢
  constructor
  · have := rnd_mono h.1
    rwa [rnd_neg_two_zpow hk] at this
  · have := rnd_mono h.2
    rwa [rnd_two_zpow hk] at this

end Dbl

/-! ## The binary64 operations on finite numbers -/

namespace Dbl

theorem p1024_pos : (0 : ℚ) < 2 ^ 1024 := pow_pos (by norm_num) 1024

theorem zpow_lt_p1024 {k : ℤ} (hk : k ≤ 1023) : (2 : ℚ) ^ k < 2 ^ 1024 := by
  have : (2 : ℚ) ^ k < 2 ^ (1024 : ℤ) := zpow_lt_zpow_right₀ (by norm_num) (by omega)
  rwa [zpow_ofNat] at this

/-- A non-negative result within the range rounds to a finite number. -/
theorem round64_of_nonneg {q : ℚ} {s : Bool} (hq : 0 ≤ q) (hs : q = 0 → s = false)
    (hb : |rnd q| < 2 ^ 1024) : round64 s q = fin (rnd q) := by
  unfold round64
  rw [if_neg (not_le.mpr hb)]
  by_cases h0 : q = 0
  · rw [if_pos h0, hs h0, h0, rnd_zero]
    simp [mk]
  · rw [if_neg h0]
    simp [mk, not_lt.mpr hq]

/-- A result within the range rounds to a finite number, or to `-0` when it is
negative and underflows. -/
theorem round64_cases (s : Bool) (q : ℚ) (hb : |rnd q| < 2 ^ 1024) :
    round64 s q = fin (rnd q) ∨ (round64 s q = negZero ∧ rnd q = 0) := by
  unfold round64
  rw [if_neg (not_le.mpr hb)]
  by_cases h0 : q = 0
  · rw [if_pos h0, h0, rnd_zero]
    cases s <;> simp [mk]
  · rw [if_neg h0]
    unfold mk
    split
    · rename_i h; exact Or.inr ⟨rfl, h.1⟩
    · exact Or.inl rfl

theorem fabs_round64 (s : Bool) (q : ℚ) (hb : |rnd q| < 2 ^ 1024) :
    fabs (round64 s q) = fin |rnd q| := by
  rcases round64_cases s q hb with h | ⟨h, h0⟩
  · rw [h]; rfl
  · rw [h, h0, abs_zero]; rfl

theorem sub64_fin (a b : ℚ) :
    sub64 (fin a) (fin b) = round64 (decide (a < 0) && !decide (b < 0)) (a - b) := rfl

theorem mul64_fin (a b : ℚ) :
    mul64 (fin a) (fin b) = round64 (xor (decide (a < 0)) (decide (b < 0))) (a * b) := rfl

theorem div64_fin {a b : ℚ} (hb : b ≠ 0) :
    div64 (fin a) (fin b) = round64 (xor (decide (a < 0)) (decide (b < 0))) (a / b) := by
  simp [div64, isNaN, isInf, isPosInf, isNegInf, isZero, signBit, val, hb]

theorem one_eq : (1 : Dbl) = fin 1 := by
  rw [ofNat_eq]; norm_num

theorem zero_eq : (0 : Dbl) = fin 0 := by
  rw [ofNat_eq]; norm_num

theorem hundred_eq : (100 : Dbl) = fin 100 := by
  rw [ofNat_eq]; norm_num

theorem rnd_one : rnd 1 = 1 := by
  have := rnd_intCast 1 (by norm_num)
  simpa using this

theorem rnd_hundred : rnd 100 = 100 := by
  have := rnd_intCast 100 (by norm_num)
  simpa using this

end Dbl

/-! ## The score normalizer in binary64 -/

/-- On `[0,2]` the binary64 score is three roundings deep: the difference `1 - r`,
the difference `1 - |.|`, and the product with 100. -/
theorem ratioToScore64_fin {r : ℚ} (h0 : 0 ≤ r) (h2 : r ≤ 2) :
    ratioToScore64 (fin r) = fin (rnd (100 * rnd (1 - |rnd (1 - r)|))) := by
  have hq1 : |1 - r| ≤ 2 ^ (0 : ℤ) := by
    rw [zpow_zero, abs_le]; constructor <;> linarith
  have hr1 : |rnd (1 - r)| ≤ 1 := by
    have := abs_rnd_le (by norm_num) hq1
    simpa using this
  have ha0 : 0 ≤ |rnd (1 - r)| := abs_nonneg _
  have hb1 : rnd (1 - |rnd (1 - r)|) ≤ 1 := by
    have := rnd_mono (show 1 - |rnd (1 - r)| ≤ 1 by linarith)
    rwa [rnd_one] at this
  have hb0 : 0 ≤ rnd (1 - |rnd (1 - r)|) := rnd_nonneg (by linarith)
  have hc1 : rnd (100 * rnd (1 - |rnd (1 - r)|)) ≤ 100 := by
    have := rnd_mono (show 100 * rnd (1 - |rnd (1 - r)|) ≤ 100 by linarith)
    rwa [rnd_hundred] at this
  have hc0 : 0 ≤ rnd (100 * rnd (1 - |rnd (1 - r)|)) := rnd_nonneg (by linarith)
  have big : (100 : ℚ) < 2 ^ 1024 :=
    lt_of_le_of_lt (by norm_num : (100 : ℚ) ≤ 2 ^ (7 : ℤ)) (zpow_lt_p1024 (by norm_num))
  have one_lt : (1 : ℚ) < 2 ^ 1024 :=
    lt_of_le_of_lt (by norm_num : (1 : ℚ) ≤ 2 ^ (0 : ℤ)) (zpow_lt_p1024 (by norm_num))
  unfold ratioToScore64
  rw [one_eq, zero_eq, hundred_eq, sub64_fin,
    fabs_round64 _ _ (lt_of_le_of_lt hr1 one_lt), sub64_fin,
    round64_of_nonneg (by linarith) (by simp)
      (by rw [abs_of_nonneg hb0]; exact lt_of_le_of_lt hb1 one_lt),
    mul64_fin,
    round64_of_nonneg (by linarith) (by intro _; simp [not_lt.mpr hb0])
      (by rw [abs_of_nonneg hc0]; exact lt_of_le_of_lt hc1 big),
    fmin_fin, fmax_fin, min_eq_left hc1, max_eq_right hc0]

namespace Dbl

/-- Evaluation of the rounding of a positive number. -/
theorem rnd_eq_pos {q : ℚ} (e n : ℤ) (he : -1022 ≤ e) (h1 : (2 : ℚ) ^ e ≤ q)
    (h2 : q < 2 ^ (e + 1)) (hn1 : (n : ℚ) - 1 / 2 < q / 2 ^ (e - 52))
    (hn2 : q / 2 ^ (e - 52) < n + 1 / 2) : rnd q = n * 2 ^ (e - 52) := by
  have hq : 0 < q := lt_of_lt_of_le (two_zpow_pos e) h1
  refine rnd_eq e n he ?_ ?_ ?_
  · rwa [abs_of_pos hq]
  · rwa [abs_of_pos hq]
  · rw [abs_lt]; constructor <;> linarith

/-- A positive number below `2^1024` whose rounding is known. -/
theorem round64_of_rnd {q m : ℚ} (s : Bool) (hq : 0 < q) (hm : rnd q = m)
    (hb : m ≤ 2 ^ (1023 : ℤ)) : round64 s q = fin m := by
  have h0 : 0 ≤ m := hm ▸ rnd_nonneg hq.le
  rw [round64_of_nonneg hq.le (fun h => absurd h hq.ne.symm), hm]
  rw [hm, abs_of_nonneg h0]
  exact lt_of_le_of_lt hb (zpow_lt_p1024 le_rfl)

end Dbl

theorem rnd_tenth : rnd 0.1 = 3602879701896397 / 36028797018963968 := by
  rw [rnd_eq_pos (-4) 7205759403792794 (by norm_num) (by norm_num) (by norm_num)
    (by norm_num) (by norm_num)]
  norm_num

theorem lit64_tenth : lit64 0.1 = fin (3602879701896397 / 36028797018963968) :=
  round64_of_rnd false (by norm_num) rnd_tenth (by norm_num)

/-- On `[0,2]` the binary64 score is within `2^-45` of `100 * (1 - |1 - r|)`. -/
theorem ratioToScore64_error {r : ℚ} (h0 : 0 ≤ r) (h2 : r ≤ 2) :
    |rnd (100 * rnd (1 - |rnd (1 - r)|)) - 100 * (1 - |1 - r|)| ≤ 1 / 35184372088832 := by
  have hq1 : |1 - r| ≤ 2 ^ (0 : ℤ) := by
    rw [zpow_zero, abs_le]; constructor <;> linarith
  have e1 : |rnd (1 - r) - (1 - r)| ≤ 1 / 18014398509481984 := by
    have := abs_rnd_sub_le_of_abs_le (by norm_num) hq1
    norm_num at this
    exact this
  have hr1 : |rnd (1 - r)| ≤ 1 := by
    have := abs_rnd_le (by norm_num) hq1
    simpa using this
  have ea : |(|rnd (1 - r)| - |1 - r|)| ≤ 1 / 18014398509481984 :=
    (abs_abs_sub_abs_le_abs_sub _ _).trans e1
  have ha0 : 0 ≤ |rnd (1 - r)| := abs_nonneg _
  have hq2 : abs (1 - |rnd (1 - r)|) ≤ 2 ^ (0 : ℤ) := by
    rw [zpow_zero, abs_le]; constructor <;> linarith
  have e2 : |rnd (1 - |rnd (1 - r)|) - (1 - |rnd (1 - r)|)| ≤ 1 / 18014398509481984 := by
    have := abs_rnd_sub_le_of_abs_le (by norm_num) hq2
    norm_num at this
    exact this
  have hb1 : |rnd (1 - |rnd (1 - r)|)| ≤ 1 := by
    have := abs_rnd_le (by norm_num) hq2
    simpa using this
  have hq3 : |100 * rnd (1 - |rnd (1 - r)|)| ≤ 2 ^ (7 : ℤ) := by
    rw [abs_mul]
    have : |(100 : ℚ)| = 100 := abs_of_pos (by norm_num)
    rw [this]
    norm_num
    linarith
  have e3 : |rnd (100 * rnd (1 - |rnd (1 - r)|)) - 100 * rnd (1 - |rnd (1 - r)|)| ≤
      1 / 140737488355328 := by
    have := abs_rnd_sub_le_of_abs_le (by norm_num) hq3
    norm_num at this
    exact this
  rw [abs_le] at ea e2 e3 ⊢
  constructor <;> linarith [ea.1, ea.2, e2.1, e2.2, e3.1, e3.2]

namespace Dbl

/-- A non-positive result rounds to a non-positive number, `-inf` included. -/
theorem round64_nonpos {q : ℚ} (s : Bool) (hq : q ≤ 0) : le (round64 s q) (fin 0) = true := by
  unfold round64
  split
  · rename_i hov
    have hlt : q < 0 := by
      rcases eq_or_lt_of_le hq with h | h
      · exfalso
        rw [h, rnd_zero, abs_zero] at hov
        exact absurd hov (not_le.mpr p1024_pos)
      · exact h
    simp [hlt, signedInf, le, isNaN, isNegInf]
  · split
    · cases s <;> simp [mk, le, isNaN, isNegInf, isPosInf, val]
    · have := rnd_nonpos hq
      unfold mk
      split
      · simp [le, isNaN, isNegInf, isPosInf, val]
      · simp [le, isNaN, isNegInf, isPosInf, val, this]

/-- A result of magnitude at least 1 has an absolute value of at least 1, `+inf`
included. -/
theorem fabs_round64_of_one_le {q : ℚ} (s : Bool) (hq : 1 ≤ |q|) :
    fabs (round64 s q) = pinf ∨ ∃ m : ℚ, fabs (round64 s q) = fin m ∧ 1 ≤ m := by
  have hr : 1 ≤ |rnd q| := by
    rcases le_abs'.mp hq with h | h
    · have := rnd_mono h
      have h1 : rnd (-1) = -1 := by
        have := rnd_intCast (-1) (by norm_num)
        simpa using this
      rw [h1] at this
      exact le_abs'.mpr (Or.inl this)
    · have := rnd_mono h
      rw [rnd_one] at this
      exact le_abs'.mpr (Or.inr this)
  have hq0 : q ≠ 0 := by
    intro h; rw [h, abs_zero] at hq; linarith
  have hr0 : rnd q ≠ 0 := by
    intro h; rw [h, abs_zero] at hr; linarith
  unfold round64
  split
  · left
    unfold signedInf
    split <;> rfl
  · right
    refine ⟨|rnd q|, ?_, hr⟩
    simp [mk, hr0, fabs]

/-- The clamp of a non-positive number is 0. -/
theorem clamp_of_nonpos {z : Dbl} (h : le z (fin 0) = true) :
    fmax (fin 0) (fmin z (fin 100)) = fin 0 := by
  cases z with
  | fin c =>
    rw [le_fin, decide_eq_true_eq] at h
    rw [fmin_fin, fmax_fin, min_eq_left (by linarith), max_eq_left h]
  | negZero => simp [fmin, fmax, le, ge, isNaN, isNegInf, isPosInf, val]
  | pinf => simp [le, isNaN, isNegInf, isPosInf] at h
  | ninf => simp [fmin, fmax, le, ge, isNaN, isNegInf, isPosInf, val]
  | nan => simp [le, isNaN] at h

/-- The product of 100 and a non-positive number is non-positive. -/
theorem mul64_hundred_nonpos {y : Dbl} (h : le y (fin 0) = true) :
    le (mul64 (fin 100) y) (fin 0) = true := by
  cases y with
  | fin c =>
    rw [le_fin, decide_eq_true_eq] at h
    rw [mul64_fin]
    exact round64_nonpos _ (by linarith)
  | negZero =>
    have : mul64 (fin 100) negZero = round64 true (100 * 0) := by
      simp [mul64, isNaN, isInf, isPosInf, isNegInf, signBit, val]
      norm_num
    rw [this]
    exact round64_nonpos _ (by norm_num)
  | pinf => simp [le, isNaN, isNegInf, isPosInf] at h
  | ninf => simp [mul64, isNaN, isInf, isPosInf, isNegInf, isZero, signBit, signedInf, le]
  | nan => simp [le, isNaN] at h

/-- One minus a number of at least 1 is non-positive. -/
theorem sub64_one_nonpos {x : Dbl} (h : x = pinf ∨ ∃ m : ℚ, x = fin m ∧ 1 ≤ m) :
    le (sub64 (fin 1) x) (fin 0) = true := by
  rcases h with rfl | ⟨m, rfl, hm⟩
  · simp [sub64, isNaN, isInf, isPosInf, isNegInf, signBit, signedInf, le]
  · rw [sub64_fin]
    exact round64_nonpos _ (by linarith)

end Dbl

/-- Outside `[0,2]` the binary64 score is 0. -/
theorem ratioToScore64_outside {r : ℚ} (h : r < 0 ∨ 2 < r) :
    ratioToScore64 (fin r) = fin 0 := by
  have h1 : 1 ≤ |1 - r| := by
    rcases h with h | h
    · exact le_abs'.mpr (Or.inr (by linarith))
    · exact le_abs'.mpr (Or.inl (by linarith))
  unfold ratioToScore64
  rw [one_eq, zero_eq, hundred_eq, sub64_fin]
  exact clamp_of_nonpos (mul64_hundred_nonpos (sub64_one_nonpos (fabs_round64_of_one_le _ h1)))

theorem ratioToScore64_negZero : ratioToScore64 negZero = fin 0 := by
  have h : sub64 1 negZero = sub64 1 (fin 0) := by
    simp [sub64, one_eq, isNaN, isInf, isPosInf, isNegInf, signBit, val]
    norm_num
  have h0 := ratioToScore64_fin (le_refl (0 : ℚ)) (by norm_num)
  unfold ratioToScore64 at h0 ⊢
  rw [h, h0]
  norm_num [rnd_one, rnd_zero]

namespace Dbl

theorem rnd_neg_one : rnd (-1) = -1 := by
  have := rnd_intCast (-1) (by norm_num)
  simpa using this

theorem rnd_half : rnd (1 / 2) = 1 / 2 := by
  have := rnd_of_repr 1 (-1) (by norm_num) (by norm_num)
  norm_num at this
  simpa using this

theorem rnd_fifty : rnd 50 = 50 := by
  have := rnd_intCast 50 (by norm_num)
  simpa using this

theorem lit64_half : lit64 0.5 = fin (1 / 2) := by
  have h : rnd (0.5 : ℚ) = 1 / 2 := by
    rw [show (0.5 : ℚ) = 1 / 2 by norm_num]; exact rnd_half
  exact round64_of_rnd false (by norm_num) h (by norm_num)

end Dbl

theorem ratioToScore64_one : ratioToScore64 (fin 1) = fin 100 := by
  rw [ratioToScore64_fin (by norm_num) (by norm_num)]
  norm_num [rnd_zero, rnd_one, rnd_hundred]

theorem ratioToScore64_zero : ratioToScore64 (fin 0) = fin 0 := by
  rw [ratioToScore64_fin (by norm_num) (by norm_num)]
  norm_num [rnd_zero, rnd_one]

theorem ratioToScore64_two : ratioToScore64 (fin 2) = fin 0 := by
  rw [ratioToScore64_fin (by norm_num) (by norm_num)]
  norm_num [rnd_zero, rnd_neg_one]

theorem ratioToScore64_half : ratioToScore64 (fin (1 / 2)) = fin 50 := by
  rw [ratioToScore64_fin (by norm_num) (by norm_num),
    show (1 : ℚ) - 1 / 2 = 1 / 2 by norm_num, rnd_half,
    abs_of_pos (by norm_num : (0 : ℚ) < 1 / 2),
    show (1 : ℚ) - 1 / 2 = 1 / 2 by norm_num, rnd_half,
    show (100 : ℚ) * (1 / 2) = 50 by norm_num, rnd_fifty]

/-- The binary64 score of the binary64 number nearest 0.1, step by step. -/
theorem ratioToScore64_lit_tenth :
    ratioToScore64 (lit64 0.1) = fin (5629499534213119 / 562949953421312) := by
  have hA : rnd (1 - 3602879701896397 / 36028797018963968) =
      8106479329266893 / 9007199254740992 := by
    rw [rnd_eq_pos (-1) 8106479329266893 (by norm_num) (by norm_num) (by norm_num)
      (by norm_num) (by norm_num)]
    norm_num
  have hB : rnd (900719925474099 / 9007199254740992) =
      900719925474099 / 9007199254740992 := by
    have := rnd_of_repr 900719925474099 (-53) (by norm_num) (by norm_num)
    norm_num at this
    simpa using this
  have hC : rnd (22517998136852475 / 2251799813685248) =
      5629499534213119 / 562949953421312 := by
    rw [rnd_eq_pos 3 5629499534213119 (by norm_num) (by norm_num) (by norm_num)
      (by norm_num) (by norm_num)]
    norm_num
  rw [lit64_tenth, ratioToScore64_fin (by norm_num) (by norm_num), hA,
    abs_of_pos (by norm_num),
    show (1 : ℚ) - 8106479329266893 / 9007199254740992 =
      900719925474099 / 9007199254740992 by norm_num, hB,
    show (100 : ℚ) * (900719925474099 / 9007199254740992) =
      22517998136852475 / 2251799813685248 by norm_num, hC]

/-- The binary64 product of 100 and the binary64 number nearest 0.1 is 10. -/
theorem mul64_hundred_lit_tenth : mul64 100 (lit64 0.1) = fin 10 := by
  have h : rnd (100 * (3602879701896397 / 36028797018963968)) = 10 := by
    rw [rnd_eq_pos 3 5629499534213120 (by norm_num) (by norm_num) (by norm_num)
      (by norm_num) (by norm_num)]
    norm_num
  rw [lit64_tenth, hundred_eq, mul64_fin]
  exact round64_of_rnd _ (by norm_num) h (by norm_num)

/-- On `[0,2]` the binary64 score lies in `[0,100]`. -/
theorem ratioToScore64_val_range {r : ℚ} (h0 : 0 ≤ r) (h2 : r ≤ 2) :
    0 ≤ rnd (100 * rnd (1 - |rnd (1 - r)|)) ∧ rnd (100 * rnd (1 - |rnd (1 - r)|)) ≤ 100 := by
  have hq1 : |1 - r| ≤ 2 ^ (0 : ℤ) := by
    rw [zpow_zero, abs_le]; constructor <;> linarith
  have hr1 : |rnd (1 - r)| ≤ 1 := by
    have := abs_rnd_le (by norm_num) hq1
    simpa using this
  have hb1 : rnd (1 - |rnd (1 - r)|) ≤ 1 := by
    have := rnd_mono (show 1 - |rnd (1 - r)| ≤ 1 by linarith [abs_nonneg (rnd (1 - r))])
    rwa [rnd_one] at this
  have hb0 : 0 ≤ rnd (1 - |rnd (1 - r)|) := rnd_nonneg (by linarith)
  constructor
  · exact rnd_nonneg (by linarith)
  · have := rnd_mono (show 100 * rnd (1 - |rnd (1 - r)|) ≤ 100 by linarith)
    rwa [rnd_hundred] at this

/-- Every finite ratio has a finite binary64 score in `[0,100]` within `2^-45` of the
clamp of `100 * (1 - |1 - r|)`. -/
theorem ratioToScore64_near_clamp (r : ℚ) :
    ∃ q : ℚ, ratioToScore64 (fin r) = fin q ∧ 0 ≤ q ∧ q ≤ 100 ∧
      |q - max 0 (min (100 * (1 - |1 - r|)) 100)| ≤ 1 / 35184372088832 := by
  by_cases h : r < 0 ∨ 2 < r
  · refine ⟨0, ratioToScore64_outside h, le_refl _, by norm_num, ?_⟩
    have hneg : 100 * (1 - |1 - r|) ≤ 0 := by
      rcases h with h | h
      · rw [abs_of_pos (by linarith)]; linarith
      · rw [abs_of_neg (by linarith)]; linarith
    rw [min_eq_left (by linarith), max_eq_left hneg]
    norm_num
  · push_neg at h
    obtain ⟨h0, h2⟩ := h
    have hr := ratioToScore64_val_range h0 h2
    refine ⟨_, ratioToScore64_fin h0 h2, hr.1, hr.2, ?_⟩
    have hle : |1 - r| ≤ 1 := by rw [abs_le]; constructor <;> linarith
    have hx0 : 0 ≤ 100 * (1 - |1 - r|) := by linarith
    have hx1 : 100 * (1 - |1 - r|) ≤ 100 := by linarith [abs_nonneg (1 - r)]
    rw [min_eq_left hx1, max_eq_right hx0]
    exact ratioToScore64_error h0 h2

namespace Dbl

end Dbl

/-- On `[0,1]` the increase is not strict: the binary64 number `2^-60` has the score of
0, because `1 - 2^-60` rounds to 1. -/
theorem ratioToScore64_not_strictly_rising :
    IsBinary64 (1 / 2 ^ 60) ∧ ratioToScore64 (fin (1 / 2 ^ 60)) = fin 0 ∧
      ratioToScore64 (fin 0) = fin 0 := by
  have h1 : rnd (1 - 1 / 2 ^ 60) = 1 := by
    rw [rnd_eq_pos (-1) 9007199254740992 (by norm_num) (by norm_num) (by norm_num)
      (by norm_num) (by norm_num)]
    norm_num
  refine ⟨⟨1, -60, by norm_num, by norm_num, by norm_num, by norm_num⟩, ?_,
    ratioToScore64_zero⟩
  rw [ratioToScore64_fin (by norm_num) (by norm_num), h1]
  norm_num [rnd_zero]

/-! ## C1: the score normalizer against the clamp formula -/

/-- C1 (counterexample): the claimed equality with `100 * r` on `[0,1]` fails at the
binary64 number nearest 0.1, which is `3602879701896397 / 2^55`.  There the three
roundings of `fmax(0, fmin(100*(1-fabs(1-ratio)), 100))` give
`5629499534213119 / 2^49 = 9.9999999999999982...`, which is neither the real product
`100 * r = 10.000000000000000555...` nor the binary64 product `100 * r = 10`. -/
theorem ratioToScore64_not_exact :
    lit64 0.1 = fin (3602879701896397 / 36028797018963968) ∧
    ratioToScore64 (lit64 0.1) = fin (5629499534213119 / 562949953421312) ∧
    ratioToScore64 (lit64 0.1) ≠ fin (100 * (3602879701896397 / 36028797018963968)) ∧
    ratioToScore64 (lit64 0.1) ≠ mul64 100 (lit64 0.1) := by
  refine ⟨lit64_tenth, ratioToScore64_lit_tenth, ?_, ?_⟩
  · rw [ratioToScore64_lit_tenth]
    intro h
    have := Dbl.fin.inj h
    norm_num at this
  · rw [ratioToScore64_lit_tenth, mul64_hundred_lit_tenth]
    intro h
    have := Dbl.fin.inj h
    norm_num at this

/-- C1 (amended): for every finite ratio `r`, `ratioToScore` returns a finite score in
`[0,100]` that is within `2^-45` of `clamp(100 * (1 - |1 - r|), 0, 100)`: within `2^-45`
of `100 * r` on `[0,1]` and of `100 * (2 - r)` on `[1,2]`, and exactly 0 for every
`r < 0`, every `r > 2` and for `-0`.  At the six sample ratios the score is exact:
100 at 1, 0 at 0 and at 2, 50 at 0.5, 0 at -0.5 and at 3. -/
theorem ratioToScore64_clamp :
    (∀ r : ℚ, ∃ q : ℚ, ratioToScore64 (fin r) = fin q ∧ 0 ≤ q ∧ q ≤ 100 ∧
      |q - max 0 (min (100 * (1 - |1 - r|)) 100)| ≤ 1 / 35184372088832) ∧
    (∀ r : ℚ, 0 ≤ r → r ≤ 1 → ∃ q : ℚ, ratioToScore64 (fin r) = fin q ∧
      |q - 100 * r| ≤ 1 / 35184372088832) ∧
    (∀ r : ℚ, 1 ≤ r → r ≤ 2 → ∃ q : ℚ, ratioToScore64 (fin r) = fin q ∧
      |q - 100 * (2 - r)| ≤ 1 / 35184372088832) ∧
    (∀ r : ℚ, r < 0 ∨ 2 < r → ratioToScore64 (fin r) = fin 0) ∧
    ratioToScore64 negZero = fin 0 ∧
    ratioToScore64 (fin 1) = fin 100 ∧
    ratioToScore64 (fin 0) = fin 0 ∧
    ratioToScore64 (fin 2) = fin 0 ∧
    ratioToScore64 (fin (1 / 2)) = fin 50 ∧
    ratioToScore64 (fin (-1 / 2)) = fin 0 ∧
    ratioToScore64 (fin 3) = fin 0 := by
  refine ⟨ratioToScore64_near_clamp, ?_, ?_, fun r h => ratioToScore64_outside h,
    ratioToScore64_negZero, ratioToScore64_one, ratioToScore64_zero, ratioToScore64_two,
    ratioToScore64_half, ratioToScore64_outside (Or.inl (by norm_num)),
    ratioToScore64_outside (Or.inr (by norm_num))⟩
  · intro r h0 h1
    refine ⟨_, ratioToScore64_fin h0 (by linarith), ?_⟩
    have := ratioToScore64_error h0 (show r ≤ 2 by linarith)
    rwa [abs_of_nonneg (show 0 ≤ 1 - r by linarith),
      show 100 * (1 - (1 - r)) = 100 * r by ring] at this
  · intro r h1 h2
    refine ⟨_, ratioToScore64_fin (by linarith) h2, ?_⟩
    have := ratioToScore64_error (show 0 ≤ r by linarith) h2
    rwa [abs_of_nonpos (show 1 - r ≤ 0 by linarith),
      show 100 * (1 - -(1 - r)) = 100 * (2 - r) by ring] at this

/-! ## C8: monotonicity of the score normalizer -/

theorem sigma_pos : (0 : ℚ) < 1 - 1 / 2 ^ 53 := by norm_num

theorem sigma_le_one : (1 - 1 / 2 ^ 53 : ℚ) ≤ 1 := by norm_num

theorem sigma_pow_pos (k : ℕ) : (0 : ℚ) < (1 - 1 / 2 ^ 53) ^ k := pow_pos sigma_pos k

theorem sigma_pow_le_one (k : ℕ) : ((1 - 1 / 2 ^ 53 : ℚ)) ^ k ≤ 1 :=
  pow_le_one₀ sigma_pos.le sigma_le_one

theorem within_refl (x : ℚ) : Within 0 x x := by simp [Within]

theorem Within.pos {k : ℕ} {a x : ℚ} (h : Within k a x) (hx : 0 < x) : 0 < a :=
  lt_of_lt_of_le (mul_pos hx (sigma_pow_pos k)) h.1

theorem Within.mul {j k : ℕ} {a b x y : ℚ} (ha : Within j a x) (hb : Within k b y)
    (hx : 0 < x) (hy : 0 < y) : Within (j + k) (a * b) (x * y) := by
  have ha0 := ha.pos hx
  have hb0 := hb.pos hy
  constructor
  · calc x * y * (1 - 1 / 2 ^ 53) ^ (j + k)
        = (x * (1 - 1 / 2 ^ 53) ^ j) * (y * (1 - 1 / 2 ^ 53) ^ k) := by rw [pow_add]; ring
      _ ≤ a * b := mul_le_mul ha.1 hb.1 (mul_pos hy (sigma_pow_pos k)).le ha0.le
  · calc a * b * (1 - 1 / 2 ^ 53) ^ (j + k)
        = (a * (1 - 1 / 2 ^ 53) ^ j) * (b * (1 - 1 / 2 ^ 53) ^ k) := by rw [pow_add]; ring
      _ ≤ x * y := mul_le_mul ha.2 hb.2 (mul_pos hb0 (sigma_pow_pos k)).le hx.le

theorem Within.div {j k : ℕ} {a b x y : ℚ} (ha : Within j a x) (hb : Within k b y)
    (hx : 0 < x) (hy : 0 < y) : Within (j + k) (a / b) (x / y) := by
  have ha0 := ha.pos hx
  have hb0 := hb.pos hy
  constructor
  · rw [div_mul_eq_mul_div, div_le_div_iff₀ hy hb0]
    calc x * (1 - 1 / 2 ^ 53) ^ (j + k) * b
        = (x * (1 - 1 / 2 ^ 53) ^ j) * (b * (1 - 1 / 2 ^ 53) ^ k) := by rw [pow_add]; ring
      _ ≤ a * y := mul_le_mul ha.1 hb.2 (mul_pos hb0 (sigma_pow_pos k)).le ha0.le
  · rw [div_mul_eq_mul_div, div_le_div_iff₀ hb0 hy]
    calc a * (1 - 1 / 2 ^ 53) ^ (j + k) * y
        = (a * (1 - 1 / 2 ^ 53) ^ j) * (y * (1 - 1 / 2 ^ 53) ^ k) := by rw [pow_add]; ring
      _ ≤ x * b := mul_le_mul ha.2 hb.1 (mul_pos hy (sigma_pow_pos k)).le hx.le

theorem Within.round {k : ℕ} {q x : ℚ} (h : Within k q x) (hx : 0 < x)
    (hq : (2 : ℚ) ^ (-1022 : ℤ) ≤ q) : Within (k + 1) (Dbl.rnd q) x := by
  have hq0 : 0 < q := h.pos hx
  have he := abs_rnd_sub_le_mul (show (2 : ℚ) ^ (-1022 : ℤ) ≤ |q| by rwa [abs_of_pos hq0])
  rw [abs_of_pos hq0, abs_le] at he
  have hu : (2 : ℚ) ^ (-53 : ℤ) = 1 / 2 ^ 53 := by norm_num
  rw [hu] at he
  have hs := sigma_pow_pos k
  constructor
  · calc x * (1 - 1 / 2 ^ 53) ^ (k + 1)
        = (x * (1 - 1 / 2 ^ 53) ^ k) * (1 - 1 / 2 ^ 53) := by rw [pow_succ]; ring
      _ ≤ q * (1 - 1 / 2 ^ 53) := mul_le_mul_of_nonneg_right h.1 sigma_pos.le
      _ ≤ Dbl.rnd q := by linarith [he.1]
  · have h1 : Dbl.rnd q * (1 - 1 / 2 ^ 53) ≤ q := by
      have : Dbl.rnd q ≤ q * (1 + 1 / 2 ^ 53) := by linarith [he.2]
      calc Dbl.rnd q * (1 - 1 / 2 ^ 53) ≤ q * (1 + 1 / 2 ^ 53) * (1 - 1 / 2 ^ 53) :=
            mul_le_mul_of_nonneg_right this sigma_pos.le
        _ = q * (1 - (1 / 2 ^ 53) ^ 2) := by ring
        _ ≤ q := by nlinarith
    calc Dbl.rnd q * (1 - 1 / 2 ^ 53) ^ (k + 1)
        = (Dbl.rnd q * (1 - 1 / 2 ^ 53)) * (1 - 1 / 2 ^ 53) ^ k := by rw [pow_succ]; ring
      _ ≤ q * (1 - 1 / 2 ^ 53) ^ k := mul_le_mul_of_nonneg_right h1 hs.le
      _ ≤ x := h.2

theorem Within.mono {j k : ℕ} {a x : ℚ} (h : Within j a x) (hjk : j ≤ k) (hx : 0 < x) :
    Within k a x := by
  have ha0 := h.pos hx
  have hp : (1 - 1 / 2 ^ 53 : ℚ) ^ k ≤ (1 - 1 / 2 ^ 53) ^ j :=
    pow_le_pow_of_le_one sigma_pos.le sigma_le_one hjk
  constructor
  · exact (mul_le_mul_of_nonneg_left hp hx.le).trans h.1
  · exact (mul_le_mul_of_nonneg_left hp ha0.le).trans h.2

/-- Seven roundings leave a relative error of at most `2^-50`. -/
theorem Within.error {a x : ℚ} (h : Within 7 a x) (hx : 0 < x) : |a - x| ≤ x / 2 ^ 50 := by
  have ha0 := h.pos hx
  obtain ⟨h1, h2⟩ := h
  have e1 : (1 - 1 / 2 ^ 50 : ℚ) ≤ (1 - 1 / 2 ^ 53) ^ 7 := by norm_num
  have e2 : (1 : ℚ) ≤ (1 + 1 / 2 ^ 50) * (1 - 1 / 2 ^ 53) ^ 7 := by norm_num
  rw [abs_le]
  constructor
  · have := mul_le_mul_of_nonneg_left e1 hx.le
    have hx' : x / 2 ^ 50 = x * (1 / 2 ^ 50) := by ring
    linarith
  · have ha : a ≤ a * ((1 + 1 / 2 ^ 50) * (1 - 1 / 2 ^ 53) ^ 7) := by
      have := mul_le_mul_of_nonneg_left e2 ha0.le
      linarith
    have hb : a * ((1 + 1 / 2 ^ 50) * (1 - 1 / 2 ^ 53) ^ 7) ≤ x * (1 + 1 / 2 ^ 50) := by
      have := mul_le_mul_of_nonneg_right h2 (show (0 : ℚ) ≤ 1 + 1 / 2 ^ 50 by norm_num)
      calc a * ((1 + 1 / 2 ^ 50) * (1 - 1 / 2 ^ 53) ^ 7)
          = a * (1 - 1 / 2 ^ 53) ^ 7 * (1 + 1 / 2 ^ 50) := by ring
        _ ≤ x * (1 + 1 / 2 ^ 50) := this
    have hx' : x / 2 ^ 50 = x * (1 / 2 ^ 50) := by ring
    linarith

/-- Three roundings leave a relative error of at most `2^-51`. -/
theorem Within.error_three {a x : ℚ} (h : Within 3 a x) (hx : 0 < x) :
    |a - x| ≤ x / 2 ^ 51 := by
  have ha0 := h.pos hx
  obtain ⟨h1, h2⟩ := h
  have e1 : (1 - 1 / 2 ^ 51 : ℚ) ≤ (1 - 1 / 2 ^ 53) ^ 3 := by norm_num
  have e2 : (1 : ℚ) ≤ (1 + 1 / 2 ^ 51) * (1 - 1 / 2 ^ 53) ^ 3 := by norm_num
  rw [abs_le]
  constructor
  · have := mul_le_mul_of_nonneg_left e1 hx.le
    have hx' : x / 2 ^ 51 = x * (1 / 2 ^ 51) := by ring
    linarith
  · have ha : a ≤ a * ((1 + 1 / 2 ^ 51) * (1 - 1 / 2 ^ 53) ^ 3) := by
      have := mul_le_mul_of_nonneg_left e2 ha0.le
      linarith
    have hb : a * ((1 + 1 / 2 ^ 51) * (1 - 1 / 2 ^ 53) ^ 3) ≤ x * (1 + 1 / 2 ^ 51) := by
      have := mul_le_mul_of_nonneg_right h2 (show (0 : ℚ) ≤ 1 + 1 / 2 ^ 51 by norm_num)
      calc a * ((1 + 1 / 2 ^ 51) * (1 - 1 / 2 ^ 53) ^ 3)
          = a * (1 - 1 / 2 ^ 53) ^ 3 * (1 + 1 / 2 ^ 51) := by ring
        _ ≤ x * (1 + 1 / 2 ^ 51) := this
    have hx' : x / 2 ^ 51 = x * (1 / 2 ^ 51) := by ring
    linarith

/-- Up to seven roundings keep a number within a factor of two. -/
theorem Within.bounds {k : ℕ} {a x : ℚ} (h : Within k a x) (hk : k ≤ 7) (hx : 0 < x) :
    x / 2 ≤ a ∧ a ≤ 2 * x := by
  have h7 := h.mono hk hx
  have ha0 := h.pos hx
  obtain ⟨h1, h2⟩ := h7
  have e1 : (1 / 2 : ℚ) ≤ (1 - 1 / 2 ^ 53) ^ 7 := by norm_num
  constructor
  · have := mul_le_mul_of_nonneg_left e1 hx.le
    linarith
  · have := mul_le_mul_of_nonneg_left e1 ha0.le
    linarith

/-! ## The distance estimate in binary64 -/

namespace Dbl

theorem pb_mul {x y : ℚ} {m n : ℤ} (hx : (2 : ℚ) ^ (-m) ≤ x ∧ x ≤ 2 ^ m)
    (hy : (2 : ℚ) ^ (-n) ≤ y ∧ y ≤ 2 ^ n) :
    (2 : ℚ) ^ (-(m + n)) ≤ x * y ∧ x * y ≤ 2 ^ (m + n) := by
  have hx0 : 0 < x := lt_of_lt_of_le (two_zpow_pos _) hx.1
  have hy0 : 0 < y := lt_of_lt_of_le (two_zpow_pos _) hy.1
  constructor
  · rw [neg_add, zpow_add₀ (by norm_num)]
    exact mul_le_mul hx.1 hy.1 (two_zpow_pos _).le hx0.le
  · rw [zpow_add₀ (by norm_num)]
    exact mul_le_mul hx.2 hy.2 hy0.le (two_zpow_pos _).le

theorem pb_inv {y : ℚ} {n : ℤ} (hy : (2 : ℚ) ^ (-n) ≤ y ∧ y ≤ 2 ^ n) :
    (2 : ℚ) ^ (-n) ≤ y⁻¹ ∧ y⁻¹ ≤ 2 ^ (- -n) := by
  have hy0 : 0 < y := lt_of_lt_of_le (two_zpow_pos _) hy.1
  constructor
  · rw [zpow_neg]
    exact inv_anti₀ hy0 hy.2
  · rw [zpow_neg]
    exact inv_anti₀ (two_zpow_pos _) hy.1

theorem pb_div {x y : ℚ} {m n : ℤ} (hx : (2 : ℚ) ^ (-m) ≤ x ∧ x ≤ 2 ^ m)
    (hy : (2 : ℚ) ^ (-n) ≤ y ∧ y ≤ 2 ^ n) :
    (2 : ℚ) ^ (-(m + n)) ≤ x / y ∧ x / y ≤ 2 ^ (m + n) := by
  rw [div_eq_mul_inv]
  have := pb_inv hy
  rw [neg_neg] at this
  exact pb_mul hx this

theorem pb_weaken {x : ℚ} {m n : ℤ} (hx : (2 : ℚ) ^ (-m) ≤ x ∧ x ≤ 2 ^ m) (hmn : m ≤ n) :
    (2 : ℚ) ^ (-n) ≤ x ∧ x ≤ 2 ^ n :=
  ⟨(zpow_le_zpow_right₀ (by norm_num) (by omega)).trans hx.1,
   hx.2.trans (zpow_le_zpow_right₀ (by norm_num) hmn)⟩

/-- The rounding of a result that is well inside the range of the normal numbers is
finite and adds one relative rounding error. -/
theorem round64_within {k : ℕ} {q x : ℚ} (s : Bool) (h : Within k q x) (hk : k + 1 ≤ 7)
    (hx : (2 : ℚ) ^ (-1000 : ℤ) ≤ x ∧ x ≤ 2 ^ (1000 : ℤ)) :
    round64 s q = fin (rnd q) ∧ Within (k + 1) (rnd q) x := by
  have hx0 : 0 < x := lt_of_lt_of_le (two_zpow_pos _) hx.1
  have hq0 : 0 < q := h.pos hx0
  obtain ⟨hb1, hb2⟩ := h.bounds (by omega) hx0
  have e1 : (2 : ℚ) ^ (-1000 : ℤ) = 2 ^ (-1001 : ℤ) * 2 := by
    rw [← zpow_add_one₀ (by norm_num)]; norm_num
  have e2 : (2 : ℚ) ^ (1001 : ℤ) = 2 ^ (1000 : ℤ) * 2 := by
    rw [← zpow_add_one₀ (by norm_num)]; norm_num
  have hlo : (2 : ℚ) ^ (-1022 : ℤ) ≤ q := by
    have : (2 : ℚ) ^ (-1022 : ℤ) ≤ 2 ^ (-1001 : ℤ) :=
      zpow_le_zpow_right₀ (by norm_num) (by norm_num)
    linarith [hx.1]
  have hhi : q ≤ 2 ^ (1023 : ℤ) := by
    have : (2 : ℚ) ^ (1001 : ℤ) ≤ 2 ^ (1023 : ℤ) :=
      zpow_le_zpow_right₀ (by norm_num) (by norm_num)
    linarith [hx.2]
  have hr : rnd q ≤ 2 ^ (1023 : ℤ) := by
    have := rnd_mono hhi
    rwa [rnd_two_zpow (by norm_num)] at this
  exact ⟨round64_of_rnd s hq0 rfl hr, h.round hx0 hlo⟩

theorem mul64_within {j k : ℕ} {a b x y : ℚ} (ha : Within j a x) (hb : Within k b y)
    (hx : 0 < x) (hy : 0 < y) (hjk : j + k + 1 ≤ 7)
    (hr : (2 : ℚ) ^ (-1000 : ℤ) ≤ x * y ∧ x * y ≤ 2 ^ (1000 : ℤ)) :
    mul64 (fin a) (fin b) = fin (rnd (a * b)) ∧ Within (j + k + 1) (rnd (a * b)) (x * y) := by
  rw [mul64_fin]
  exact round64_within _ (ha.mul hb hx hy) hjk hr

theorem div64_within {j k : ℕ} {a b x y : ℚ} (ha : Within j a x) (hb : Within k b y)
    (hx : 0 < x) (hy : 0 < y) (hjk : j + k + 1 ≤ 7)
    (hr : (2 : ℚ) ^ (-1000 : ℤ) ≤ x / y ∧ x / y ≤ 2 ^ (1000 : ℤ)) :
    div64 (fin a) (fin b) = fin (rnd (a / b)) ∧ Within (j + k + 1) (rnd (a / b)) (x / y) := by
  rw [div64_fin (hb.pos hy).ne.symm]
  exact round64_within _ (ha.div hb hx hy) hjk hr

theorem sub64_within {a b : ℚ}
    (hr : (2 : ℚ) ^ (-1000 : ℤ) ≤ a - b ∧ a - b ≤ 2 ^ (1000 : ℤ)) :
    sub64 (fin a) (fin b) = fin (rnd (a - b)) ∧ Within 1 (rnd (a - b)) (a - b) := by
  rw [sub64_fin]
  exact round64_within _ (within_refl _) (by norm_num) hr

theorem lit64_within {q : ℚ} (hr : (2 : ℚ) ^ (-1000 : ℤ) ≤ q ∧ q ≤ 2 ^ (1000 : ℤ)) :
    lit64 q = fin (rnd q) ∧ Within 1 (rnd q) q :=
  round64_within false (within_refl _) (by norm_num) hr

theorem ofInt64_of_pos {n : ℤ} (h0 : 0 < n) (h1 : n ≤ 2 ^ 53) : ofInt64 n = fin n := by
  have hc : (0 : ℚ) < n := by exact_mod_cast h0
  have hn : |n| ≤ 2 ^ 53 := by rw [abs_of_pos h0]; exact h1
  refine round64_of_rnd false hc (rnd_intCast n hn) ?_
  have : ((n : ℤ) : ℚ) ≤ ((2 ^ 53 : ℤ) : ℚ) := by exact_mod_cast h1
  refine this.trans ?_
  have : (2 : ℚ) ^ (53 : ℤ) ≤ 2 ^ (1023 : ℤ) :=
    zpow_le_zpow_right₀ (by norm_num) (by norm_num)
  exact (le_of_eq (by norm_num)).trans this

end Dbl

/-- The binary64 `normalizedWidth` of a bounding rectangle of a width between `2^-64`
and `2^64` is the exact quotient up to three roundings. -/
theorem normalizedWidth64_within {report : ParticleReport} {l r : ℚ} {xRes : Int}
    (hl : report.BoundingRectLeft = fin l) (hr : report.BoundingRectRight = fin r)
    (hw1 : (2 : ℚ) ^ (-64 : ℤ) ≤ r - l) (hw2 : r - l ≤ 2 ^ (64 : ℤ))
    (hx1 : 0 < xRes) (hx2 : xRes < 2 ^ 31) :
    normalizedWidth64 xRes report = fin (rnd (rnd (2 * rnd (r - l)) / xRes)) ∧
      Within 3 (rnd (rnd (2 * rnd (r - l)) / xRes)) (2 * (r - l) / xRes) ∧
      (2 : ℚ) ^ (-(1 + 64 + 31) : ℤ) ≤ 2 * (r - l) / xRes ∧
      2 * (r - l) / xRes ≤ 2 ^ (1 + 64 + 31 : ℤ) := by
  have hw : (2 : ℚ) ^ (-(64 : ℤ)) ≤ r - l ∧ r - l ≤ 2 ^ (64 : ℤ) := ⟨hw1, hw2⟩
  have h2 : (2 : ℚ) ^ (-(1 : ℤ)) ≤ 2 ∧ (2 : ℚ) ≤ 2 ^ (1 : ℤ) := by norm_num
  have hxq : (2 : ℚ) ^ (-(31 : ℤ)) ≤ (xRes : ℚ) ∧ (xRes : ℚ) ≤ 2 ^ (31 : ℤ) := by
    have a1 : (1 : ℚ) ≤ xRes := by exact_mod_cast hx1
    have a2 : (xRes : ℚ) ≤ ((2 ^ 31 : ℤ) : ℚ) := by exact_mod_cast hx2.le
    constructor
    · refine LE.le.trans ?_ a1
      norm_num
    · refine a2.trans (le_of_eq ?_)
      norm_num
  have hx0 : (0 : ℚ) < xRes := by exact_mod_cast hx1
  have hw0 : 0 < r - l := lt_of_lt_of_le (two_zpow_pos _) hw1
  have p2 := pb_mul h2 hw
  have p3 := pb_div p2 hxq
  obtain ⟨e1, w1⟩ := sub64_within (pb_weaken hw (by norm_num : (64 : ℤ) ≤ 1000))
  obtain ⟨e2, w2⟩ := mul64_within (within_refl 2) w1 (by norm_num) hw0 (by norm_num)
    (pb_weaken p2 (by norm_num))
  obtain ⟨e3, w3⟩ := div64_within w2 (within_refl (xRes : ℚ)) (by positivity) hx0
    (by norm_num) (pb_weaken p3 (by norm_num))
  refine ⟨?_, w3, p3⟩
  unfold normalizedWidth64
  rw [hl, hr, e1, show (2 : Dbl) = fin 2 by rw [ofNat_eq]; norm_num, e2,
    ofInt64_of_pos hx1 (by omega), e3]

/-- The binary64 distance is the exact quotient up to seven roundings, when the width
of the bounding rectangle and the value of `tan` are between `2^-64` and `2^64`. -/
theorem computeDistance64_within (tan : Dbl → Dbl) (M_PI : Dbl) {xRes : Int}
    {report : ParticleReport} (isLong : Bool) {l r t : ℚ}
    (hl : report.BoundingRectLeft = fin l) (hr : report.BoundingRectRight = fin r)
    (hw1 : (2 : ℚ) ^ (-64 : ℤ) ≤ r - l) (hw2 : r - l ≤ 2 ^ (64 : ℤ))
    (hx1 : 0 < xRes) (hx2 : xRes < 2 ^ 31)
    (ht : tan (div64 (mul64 (lit64 49.4) M_PI) (ofInt64 (180 * 2))) = fin t)
    (ht1 : (2 : ℚ) ^ (-64 : ℤ) ≤ t) (ht2 : t ≤ 2 ^ (64 : ℤ)) :
    ∃ d : ℚ, computeDistance64 tan M_PI xRes report isLong = fin d ∧
      Within 7 d ((if isLong then 26.9 else 16.9) / (2 * (r - l) / xRes * 12 * t)) ∧
      0 < (if isLong then (26.9 : ℚ) else 16.9) / (2 * (r - l) / xRes * 12 * t) := by
  obtain ⟨en, wn, pn⟩ := normalizedWidth64_within hl hr hw1 hw2 hx1 hx2
  have h12 : (2 : ℚ) ^ (-(4 : ℤ)) ≤ 12 ∧ (12 : ℚ) ≤ 2 ^ (4 : ℤ) := by norm_num
  have htb : (2 : ℚ) ^ (-(64 : ℤ)) ≤ t ∧ t ≤ 2 ^ (64 : ℤ) := ⟨ht1, ht2⟩
  have hW : (2 : ℚ) ^ (-(5 : ℤ)) ≤ (if isLong then (26.9 : ℚ) else 16.9) ∧
      (if isLong then (26.9 : ℚ) else 16.9) ≤ 2 ^ (5 : ℤ) := by
    cases isLong <;> norm_num
  have hW0 : (0 : ℚ) < (if isLong then (26.9 : ℚ) else 16.9) :=
    lt_of_lt_of_le (two_zpow_pos _) hW.1
  have ht0 : 0 < t := lt_of_lt_of_le (two_zpow_pos _) ht1
  have hn0 : 0 < 2 * (r - l) / xRes := lt_of_lt_of_le (two_zpow_pos _) pn.1
  have p4 := pb_mul pn h12
  have p5 := pb_mul p4 htb
  have p6 := pb_div hW p5
  have h50 : 0 < 2 * (r - l) / xRes * 12 * t := by positivity
  obtain ⟨e4, w4⟩ := mul64_within wn (within_refl 12) hn0 (by norm_num) (by norm_num)
    (pb_weaken p4 (by norm_num))
  obtain ⟨e5, w5⟩ := mul64_within w4 (within_refl t) (by positivity) ht0 (by norm_num)
    (pb_weaken p5 (by norm_num))
  obtain ⟨eW, wW⟩ := lit64_within (pb_weaken hW (by norm_num : (5 : ℤ) ≤ 1000))
  obtain ⟨e6, w6⟩ := div64_within wW w5 hW0 h50 (by norm_num) (pb_weaken p6 (by norm_num))
  refine ⟨_, ?_, w6, div_pos hW0 h50⟩
  unfold computeDistance64
  simp only []
  rw [en, ht, show (12 : Dbl) = fin 12 by rw [ofNat_eq]; norm_num, e4, e5]
  have hlit : (if isLong = true then lit64 26.9 else lit64 16.9) =
      lit64 (if isLong then (26.9 : ℚ) else 16.9) := by cases isLong <;> rfl
  rw [hlit, eW, e6]

/-- A bounding rectangle 200 wide in an image 400 wide has the binary64
`normalizedWidth` 1. -/
theorem normalizedWidth64_sample {report : ParticleReport} {l r : ℚ}
    (hl : report.BoundingRectLeft = fin l) (hr : report.BoundingRectRight = fin r)
    (hw : r - l = 200) : normalizedWidth64 400 report = fin 1 := by
  have h := (@normalizedWidth64_within report l r 400 hl hr (by rw [hw]; norm_num)
    (by rw [hw]; norm_num) (by norm_num) (by norm_num)).1
  have e200 : rnd 200 = 200 := by
    have := rnd_intCast 200 (by norm_num)
    simpa using this
  have e400 : rnd 400 = 400 := by
    have := rnd_intCast 400 (by norm_num)
    simpa using this
  rw [h, hw, e200, show (2 : ℚ) * 200 = 400 by norm_num, e400]
  norm_num [rnd_one]

namespace Dbl

theorem ofInt64_360 : ofInt64 (180 * 2) = fin 360 := by
  rw [ofInt64_of_pos (by norm_num) (by norm_num)]
  norm_num

theorem rnd_tiny {q : ℚ} (h0 : 0 ≤ q) (h : q < 2 ^ (-1075 : ℤ)) : rnd q = 0 := by
  have hs : |q| < 2 ^ (-1022 : ℤ) := by
    rw [abs_of_nonneg h0]
    exact h.trans (zpow_lt_zpow_right₀ (by norm_num) (by norm_num))
  unfold rnd
  rw [ulpExp_of_small hs]
  have e : (2 : ℚ) ^ (-1075 : ℤ) = 2 ^ (-1074 : ℤ) / 2 := by
    rw [show (-1074 : ℤ) = -1075 + 1 by norm_num, zpow_add_one₀ (by norm_num)]
    ring
  have hp := two_zpow_pos (-1074)
  have : roundHalfEven (q / 2 ^ (-1074 : ℤ)) = 0 := by
    apply roundHalfEven_eq_of_abs_lt
    rw [Int.cast_zero, sub_zero, abs_of_nonneg (div_nonneg h0 hp.le), div_lt_iff₀ hp]
    rw [e] at h
    linarith
  rw [this]
  simp

end Dbl

theorem lit64_26_9 : lit64 26.9 = fin (3785838436758323 / 140737488355328) := by
  have h : rnd (26.9 : ℚ) = 3785838436758323 / 140737488355328 := by
    rw [rnd_eq_pos 4 7571676873516646 (by norm_num) (by norm_num) (by norm_num)
      (by norm_num) (by norm_num)]
    norm_num
  exact round64_of_rnd false (by norm_num) h (by norm_num)

theorem lit64_49_4 : lit64 49.4 = fin (6952431924753203 / 140737488355328) := by
  have h : rnd (49.4 : ℚ) = 6952431924753203 / 140737488355328 := by
    rw [rnd_eq_pos 5 6952431924753203 (by norm_num) (by norm_num) (by norm_num)
      (by norm_num) (by norm_num)]
    norm_num
  exact round64_of_rnd false (by norm_num) h (by norm_num)

/-- The argument of `tan` in binary64: `49.4 * M_PI / 360` is 0x1.b97150a95ef83p-2. -/
theorem halfViewAngle64 :
    div64 (mul64 (lit64 49.4) M_PI64) (ofInt64 (180 * 2)) =
      fin (7765940998893443 / 18014398509481984) := by
  have h1 : rnd (6952431924753203 / 140737488355328 *
      (884279719003555 / 281474976710656)) = 682553408105869 / 4398046511104 := by
    rw [rnd_eq_pos 7 5460427264846952 (by norm_num) (by norm_num) (by norm_num)
      (by norm_num) (by norm_num)]
    norm_num
  have h2 : rnd (682553408105869 / 4398046511104 / 360) =
      7765940998893443 / 18014398509481984 := by
    rw [rnd_eq_pos (-2) 7765940998893443 (by norm_num) (by norm_num) (by norm_num)
      (by norm_num) (by norm_num)]
    norm_num
  rw [lit64_49_4, M_PI64, mul64_fin, round64_of_rnd _ (by norm_num) h1 (by norm_num),
    ofInt64_360, div64_fin (by norm_num), round64_of_rnd _ (by norm_num) h2 (by norm_num)]

theorem tanHalfViewAngle_eq :
    tanHalfViewAngle (div64 (mul64 (lit64 49.4) M_PI64) (ofInt64 (180 * 2))) =
      fin (8285697561838739 / 18014398509481984) := by
  rw [halfViewAngle64, tanHalfViewAngle, if_pos rfl]

theorem wideParticle_left : wideParticle.BoundingRectLeft = fin 100 := by
  show (100 : Dbl) = fin 100
  rw [ofNat_eq]; norm_num

theorem wideParticle_right : wideParticle.BoundingRectRight = fin 300 := by
  show (300 : Dbl) = fin 300
  rw [ofNat_eq]; norm_num

/-- The binary64 distance of the 200 pixel wide long-side target in a 400 pixel wide
image: 0x1.37eb3d5293ed1p+2, which is 4.8737328821586781 to 17 digits. -/
theorem computeDistance64_wideParticle :
    computeDistance64 tanHalfViewAngle M_PI64 400 wideParticle true =
      fin (5487335397998289 / 1125899906842624) := by
  have h12 : rnd (1 * 12) = 12 := by
    have := rnd_intCast 12 (by norm_num)
    simpa using this
  have h1 : rnd (12 * (8285697561838739 / 18014398509481984)) =
      3107136585689527 / 562949953421312 := by
    rw [rnd_eq_pos 2 6214273171379054 (by norm_num) (by norm_num) (by norm_num)
      (by norm_num) (by norm_num)]
    norm_num
  have h2 : rnd (3785838436758323 / 140737488355328 /
      (3107136585689527 / 562949953421312)) = 5487335397998289 / 1125899906842624 := by
    rw [rnd_eq_pos 2 5487335397998289 (by norm_num) (by norm_num) (by norm_num)
      (by norm_num) (by norm_num)]
    norm_num
  unfold computeDistance64
  simp only [if_true]
  rw [normalizedWidth64_sample wideParticle_left wideParticle_right (by norm_num),
    tanHalfViewAngle_eq, lit64_26_9, show (12 : Dbl) = fin 12 by rw [ofNat_eq]; norm_num,
    mul64_fin, round64_of_rnd _ (by norm_num) h12 (by norm_num),
    mul64_fin, round64_of_rnd _ (by norm_num) h1 (by norm_num),
    div64_fin (by norm_num), round64_of_rnd _ (by norm_num) h2 (by norm_num)]

/-- The binary64 `normalizedWidth` of the narrowest bounding rectangle underflows to
zero. -/
theorem normalizedWidth64_sliverParticle : normalizedWidth64 400 sliverParticle = fin 0 := by
  have hl : sliverParticle.BoundingRectLeft = fin 0 := by
    show (0 : Dbl) = fin 0
    rw [ofNat_eq]; norm_num
  have hr : sliverParticle.BoundingRectRight = fin (2 ^ (-1074 : ℤ)) := rfl
  have hp := two_zpow_pos (-1074)
  have hsmall : (2 : ℚ) ^ (-1074 : ℤ) ≤ 2 ^ (1023 : ℤ) :=
    zpow_le_zpow_right₀ (by norm_num) (by norm_num)
  have e2 : (2 : ℚ) * 2 ^ (-1074 : ℤ) = 2 ^ (-1073 : ℤ) := by
    rw [show (-1073 : ℤ) = -1074 + 1 by norm_num, zpow_add_one₀ (by norm_num)]
    ring
  have hsmall2 : (2 : ℚ) ^ (-1073 : ℤ) ≤ 2 ^ (1023 : ℤ) :=
    zpow_le_zpow_right₀ (by norm_num) (by norm_num)
  have e3 : (2 : ℚ) ^ (-1073 : ℤ) = 4 * 2 ^ (-1075 : ℤ) := by
    rw [show (-1073 : ℤ) = -1075 + 1 + 1 by norm_num, zpow_add_one₀ (by norm_num),
      zpow_add_one₀ (by norm_num)]
    ring
  have hp5 := two_zpow_pos (-1075)
  have hq0 : (0 : ℚ) ≤ 2 ^ (-1073 : ℤ) / 400 := by positivity
  have h3 : rnd (2 ^ (-1073 : ℤ) / 400) = 0 := by
    apply rnd_tiny hq0
    rw [e3, div_lt_iff₀ (by norm_num)]
    linarith
  unfold normalizedWidth64
  rw [hl, hr, sub64_fin, sub_zero,
    round64_of_rnd _ hp (rnd_two_zpow (by norm_num)) hsmall,
    show (2 : Dbl) = fin 2 by rw [ofNat_eq]; norm_num, mul64_fin, e2,
    round64_of_rnd _ (two_zpow_pos _) (rnd_two_zpow (by norm_num)) hsmall2,
    ofInt64_of_pos (by norm_num) (by norm_num), div64_fin (by norm_num)]
  have hcast : ((400 : ℤ) : ℚ) = 400 := by norm_num
  have hqpos : (0 : ℚ) < 2 ^ (-1073 : ℤ) / 400 := by positivity
  rw [hcast, round64_of_nonneg hq0 (fun h => absurd h hqpos.ne.symm)
    (by rw [h3, abs_zero]; exact p1024_pos), h3]

/-- With a `normalizedWidth` of zero the binary64 distance is a division by zero. -/
theorem computeDistance64_sliverParticle :
    computeDistance64 tanHalfViewAngle M_PI64 400 sliverParticle true = pinf := by
  have h0 : round64 false (0 : ℚ) = fin 0 := by
    rw [round64_of_nonneg le_rfl (by simp) (by rw [rnd_zero, abs_zero]; exact p1024_pos),
      rnd_zero]
  unfold computeDistance64
  simp only [if_true]
  rw [normalizedWidth64_sliverParticle, tanHalfViewAngle_eq, lit64_26_9,
    show (12 : Dbl) = fin 12 by rw [ofNat_eq]; norm_num, mul64_fin]
  norm_num
  rw [h0, mul64_fin]
  norm_num
  rw [h0]
  simp [div64, isNaN, isInf, isPosInf, isNegInf, isZero, signBit, val, signedInf]
  norm_num

/-! ## C5: the distance estimate against the formula -/

/-- C5 (counterexample): the value returned is not the value of the formula.  For the
long-side target 200 pixels wide in an image 400 pixels wide (`right > left`,
`xRes > 0`), with the binary64 `M_PI` and the correctly rounded tangent, the code returns
the binary64 number `5487335397998289 / 2^50 = 4.8737328821586781...`, which is not the
quotient of the formula at the same tangent.  For a bounding rectangle `2^-1074` wide
(`right > left` as well) `normalizedWidth` underflows to zero and the code returns
`+inf`, where the formula has a finite value. -/
theorem computeDistance64_not_formula :
    computeDistance64 tanHalfViewAngle M_PI64 400 wideParticle true =
      fin (5487335397998289 / 1125899906842624) ∧
    computeDistance64 tanHalfViewAngle M_PI64 400 wideParticle true ≠
      fin (26.9 / (2 * (300 - 100) / 400 * 12 * (8285697561838739 / 18014398509481984))) ∧
    normalizedWidth64 400 sliverParticle = fin 0 ∧
    computeDistance64 tanHalfViewAngle M_PI64 400 sliverParticle true = pinf := by
  refine ⟨computeDistance64_wideParticle, ?_, normalizedWidth64_sliverParticle,
    computeDistance64_sliverParticle⟩
  rw [computeDistance64_wideParticle]
  intro h
  have := Dbl.fin.inj h
  norm_num at this

/-- C5 (amended): for every particle whose bounding rectangle has a width `right - left`
between `2^-64` and `2^64`, every image width `xRes` of a positive `int` and either
orientation, when `tan` returns a finite `t` between `2^-64` and `2^64` for the
binary64 value of `VIEW_ANGLE*M_PI/(180*2)`: `normalizedWidth` is a finite number
within a relative error of `2^-51` of `2 * (right - left) / xRes`, and exactly 1 for
`right - left = 200` and `xRes = 400`; and `computeDistance` returns a finite positive
number within a relative error of `2^-50` of
`targetWidth / (normalizedWidth * 12 * t)` for the exact `normalizedWidth`, with
`targetWidth` 26.9 when `isLong` and 16.9 otherwise. -/
theorem computeDistance64_formula (tan : Dbl → Dbl) (M_PI : Dbl) (xRes : Int)
    (report : ParticleReport) (isLong : Bool) (l r t : ℚ)
    (hl : report.BoundingRectLeft = fin l) (hr : report.BoundingRectRight = fin r)
    (hw1 : (2 : ℚ) ^ (-64 : ℤ) ≤ r - l) (hw2 : r - l ≤ 2 ^ (64 : ℤ))
    (hx1 : 0 < xRes) (hx2 : xRes < 2 ^ 31)
    (ht : tan (div64 (mul64 (lit64 49.4) M_PI) (ofInt64 (180 * 2))) = fin t)
    (ht1 : (2 : ℚ) ^ (-64 : ℤ) ≤ t) (ht2 : t ≤ 2 ^ (64 : ℤ)) :
    ∃ w d : ℚ,
      normalizedWidth64 xRes report = fin w ∧
      |w - 2 * (r - l) / xRes| ≤ 2 * (r - l) / xRes / 2 ^ 51 ∧
      (r - l = 200 → xRes = 400 → w = 1) ∧
      computeDistance64 tan M_PI xRes report isLong = fin d ∧
      0 < d ∧
      |d - (if isLong then 26.9 else 16.9) / (2 * (r - l) / xRes * 12 * t)| ≤
        (if isLong then 26.9 else 16.9) / (2 * (r - l) / xRes * 12 * t) / 2 ^ 50 := by
  obtain ⟨en, wn, pn⟩ := normalizedWidth64_within hl hr hw1 hw2 hx1 hx2
  obtain ⟨d, ed, wd, hD⟩ :=
    computeDistance64_within tan M_PI isLong hl hr hw1 hw2 hx1 hx2 ht ht1 ht2
  have hn0 : 0 < 2 * (r - l) / xRes := lt_of_lt_of_le (two_zpow_pos _) pn.1
  refine ⟨_, d, en, wn.error_three hn0, ?_, ed, wd.pos hD, wd.error hD⟩
  intro hw hx
  subst hx
  have h1 := normalizedWidth64_sample hl hr hw
  rw [en] at h1
  exact Dbl.fin.inj h1

/-- C5 (witness): the long-side target 200 pixels wide in an image 400 pixels wide, with
the binary64 `M_PI` and the correctly rounded tangent of half the view angle. -/
theorem computeDistance64_formula_witness :
    wideParticle.BoundingRectLeft = fin 100 ∧ wideParticle.BoundingRectRight = fin 300 ∧
    tanHalfViewAngle (div64 (mul64 (lit64 49.4) M_PI64) (ofInt64 (180 * 2))) =
      fin (8285697561838739 / 18014398509481984) ∧
    ∃ w d : ℚ,
      normalizedWidth64 400 wideParticle = fin w ∧
      |w - 2 * (300 - 100) / ((400 : ℤ) : ℚ)| ≤ 2 * (300 - 100) / ((400 : ℤ) : ℚ) / 2 ^ 51 ∧
      ((300 : ℚ) - 100 = 200 → (400 : ℤ) = 400 → w = 1) ∧
      computeDistance64 tanHalfViewAngle M_PI64 400 wideParticle true = fin d ∧
      0 < d ∧
      |d - (if true = true then 26.9 else 16.9) /
          (2 * (300 - 100) / ((400 : ℤ) : ℚ) * 12 *
            (8285697561838739 / 18014398509481984))| ≤
        (if true = true then 26.9 else 16.9) /
          (2 * (300 - 100) / ((400 : ℤ) : ℚ) * 12 *
            (8285697561838739 / 18014398509481984)) / 2 ^ 50 :=
  ⟨wideParticle_left, wideParticle_right, tanHalfViewAngle_eq,
   computeDistance64_formula tanHalfViewAngle M_PI64 400 wideParticle true 100 300
     (8285697561838739 / 18014398509481984) wideParticle_left wideParticle_right
     (by norm_num) (by norm_num) (by norm_num) (by norm_num) tanHalfViewAngle_eq
     (by norm_num) (by norm_num)⟩

end Robot
